import Mathlib

/-
Verification of the tysm batch orchestration core against its specification.

The definitions below are a shallow embedding of the Rust sources:
  src/src/batch.rs            (job model, wait_for_batch, get_batch_results, list_batches)
  src/src/chat_completions.rs (batch_chat_with_messages_raw: digest, reuse, reconciliation)
  src/src/schema.rs           (OpenAiTransform::transform)
Machine integers (u64) are modeled as Nat with explicit reduction modulo 2 ^ 64
where the Rust arithmetic can wrap.  Fallible code returns Except.  External
collaborators (HTTP transport, file store, serde, xxhash) are modeled as
parameters or as already-parsed inputs, as noted at each definition.
-/

namespace Tysm

/-! ### Batch data model, from src/src/batch.rs lines 222-316 -/

/-- The status of a batch, from the BatchStatus enum (batch.rs 262-288). -/
inductive BatchStatus where
  | Validating
  | Failed
  | InProgress
  | Finalizing
  | Completed
  | Expired
  | Cancelling
  | Cancelled
deriving DecidableEq

/-- String rendering of a BatchStatus.  The impl Display for BatchStatus
(batch.rs 290-294) formats the value with the Debug representation, which for
a fieldless Rust enum is the CamelCase variant name.  This is the only
status-to-string conversion defined anywhere in the crate, so it is the
meaning of the expression batch.status.as_str() at chat_completions.rs 822. -/
def BatchStatus.display : BatchStatus → String
  | .Validating => "Validating"
  | .Failed => "Failed"
  | .InProgress => "InProgress"
  | .Finalizing => "Finalizing"
  | .Completed => "Completed"
  | .Expired => "Expired"
  | .Cancelling => "Cancelling"
  | .Cancelled => "Cancelled"

/-- A batch object, from struct Batch (batch.rs 222-259), restricted to the
fields the claims read: id, status, output_file_id, errors and metadata.
The errors field is Option Value in the source and is only ever turned into a
string by wait_for_batch via unwrap_or_default().to_string(); we model it as
the resulting string, absent meaning the serde_json Value default Null, which
prints as "null".  The metadata HashMap String String is an association
list with unique keys. -/
structure Batch where
  id : String
  status : BatchStatus
  output_file_id : Option String
  errors : Option String
  metadata : Option (List (String × String))
deriving DecidableEq

/-! ### Planner reuse decision, from batch_chat_with_messages_raw
(chat_completions.rs 816-860) -/

/-- The still_active predicate of the reuse filter (chat_completions.rs
820-825): the status string is compared against the lowercase serde names. -/
def stillActive (b : Batch) : Bool :=
  ["completed", "in_progress", "validating"].contains b.status.display

/-- The metadata digest comparison of the reuse filter (chat_completions.rs
827-834): look up the request_hash key in the metadata (defaulting to an
empty map) and compare with the decimal rendering of the fresh digest. -/
def digestMatches (b : Batch) (request_hash : Nat) : Bool :=
  match (b.metadata.getD []).lookup "request_hash" with
  | some s => s = toString request_hash
  | none => false

/-- The reuse selection (chat_completions.rs 818-836): the first listed batch
that is still active and whose metadata digest matches. -/
def findReusableBatch (batches : List Batch) (request_hash : Nat) : Option Batch :=
  batches.find? (fun b => stillActive b && digestMatches b request_hash)

theorem stillActive_eq_false (b : Batch) : stillActive b = false := by
  cases h : b.status <;> simp [stillActive, BatchStatus.display, h]

/-- Claim C2: the claim states that the Planner reuses a listed job exactly
when its status is validating, in_progress or completed and its metadata
digest matches.  In the code this is false: the status is rendered through
the Display impl, which produces Debug names such as "Completed", and these
never equal the lowercase candidates "completed", "in_progress",
"validating", so the reuse filter rejects every batch and the Planner always
uploads and creates a new job.  This theorem evaluates the selection on every
possible listing: it always returns none, even when the listing contains a
completed batch whose digest matches. -/
theorem findReusableBatch_always_none (batches : List Batch) (request_hash : Nat) :
    findReusableBatch batches request_hash = none := by
  induction batches with
  | nil => rfl
  | cons b rest ih =>
    unfold findReusableBatch at ih ⊢
    rw [List.find?_cons]
    simp only [stillActive_eq_false b, Bool.false_and]
    exact ih

/-! ### SubmissionDigest, from batch_chat_with_messages_raw
(chat_completions.rs 791-814).

Each prompt is hashed by xxh3_64 over its debug serialization; the hash
function is an external library, so the fingerprint is a parameter here.
The per-prompt hashes are collected into a HashSet u64 and folded with
wrapping_add starting from 0.  The HashSet is modeled by List.dedup (the
fold is order independent because wrapping addition commutes, so which
representative enumeration the set uses cannot be observed). -/

/-- One wrapping_add step on u64, as Nat arithmetic modulo 2 ^ 64. -/
def wrapAdd (acc h : Nat) : Nat := (acc + h) % 2 ^ 64

instance : RightCommutative wrapAdd :=
  ⟨fun b a1 a2 => by unfold wrapAdd; rw [Nat.mod_add_mod, Nat.mod_add_mod, Nat.add_right_comm]⟩

/-- The batch level idempotency key (chat_completions.rs 811-814): fold of
the distinct per-request fingerprints with wrapping addition. -/
def submissionDigest {α : Type} (fingerprint : α → Nat) (prompts : List α) : Nat :=
  ((prompts.map fingerprint).dedup).foldl wrapAdd 0

/-- The custom id list (chat_completions.rs 791-811): one id per prompt
occurrence, formed from the fingerprint. -/
def customIds {α : Type} (fingerprint : α → Nat) (prompts : List α) : List String :=
  prompts.map (fun p => "request-" ++ toString (fingerprint p))

/-- Claim C4: the SubmissionDigest is invariant under permutation of the
request list, because the digest folds a deduplicated hash collection with a
commutative wrapping addition. -/
theorem submissionDigest_perm {α : Type} (fingerprint : α → Nat) (l1 l2 : List α)
    (h : l1.Perm l2) :
    submissionDigest fingerprint l1 = submissionDigest fingerprint l2 := by
  unfold submissionDigest
  exact ((h.map fingerprint).dedup).foldl_eq 0

/-- Witness for claim C4 at a concrete pair of permuted lists. -/
theorem submissionDigest_perm_witness :
    submissionDigest (fun n => n) [1, 2] = submissionDigest (fun n => n) [2, 1] :=
  submissionDigest_perm (fun n => n) [1, 2] [2, 1] (by decide)

theorem dedup_map_dedup {α β : Type} [DecidableEq α] [DecidableEq β] (f : α → β) :
    ∀ l : List α, ((l.dedup).map f).dedup = (l.map f).dedup := by
  intro l
  induction l with
  | nil => rfl
  | cons a l ih =>
    by_cases ha : a ∈ l
    · rw [List.dedup_cons_of_mem ha, List.map_cons, ih,
        List.dedup_cons_of_mem (List.mem_map_of_mem f ha)]
    · rw [List.dedup_cons_of_not_mem ha, List.map_cons, List.map_cons]
      by_cases hfa : f a ∈ l.map f
      · have h1 : f a ∈ (l.dedup).map f := by
          rcases List.mem_map.1 hfa with ⟨b, hb, hfb⟩
          exact List.mem_map.2 ⟨b, List.mem_dedup.2 hb, hfb⟩
        rw [List.dedup_cons_of_mem h1, List.dedup_cons_of_mem hfa, ih]
      · have h1 : f a ∉ (l.dedup).map f := by
          intro hc
          rcases List.mem_map.1 hc with ⟨b, hb, hfb⟩
          exact hfa (List.mem_map.2 ⟨b, List.mem_dedup.1 hb, hfb⟩)
        rw [List.dedup_cons_of_not_mem h1, List.dedup_cons_of_not_mem hfa, ih]

/-- Claim C10: the digest folds over distinct fingerprints only, so a list
with duplicated logical requests has the same digest as the list with the
duplicates removed, while the custom id list still has one entry per
occurrence. -/
theorem submissionDigest_dedup {α : Type} [DecidableEq α] (fingerprint : α → Nat)
    (l : List α) :
    submissionDigest fingerprint l = submissionDigest fingerprint l.dedup ∧
      (customIds fingerprint l).length = l.length := by
  constructor
  · unfold submissionDigest
    rw [dedup_map_dedup]
  · simp [customIds]

/-! ### wait_for_batch, from batch.rs lines 504-543.

The loop keeps two mutable counters, attempts and seconds_waited, both
starting at 0.  Each iteration fetches the batch; on a terminal status it
returns, otherwise it increments attempts, returns a timeout error if
seconds_waited is already at least 86400, and otherwise sleeps for
min(120, 2_u64.pow(attempts)) seconds and adds that delay to seconds_waited.
The Rust power is u64 arithmetic: 2_u64.pow(attempts) wraps modulo 2 ^ 64 in
release builds once attempts reaches 64 (debug builds abort on the overflow
instead), which the model makes explicit with a reduction modulo 2 ^ 64.
The remote status fetches are modeled by a function from the poll index to
the observed batch, and the unbounded Rust loop by a fuel argument: a result
of none means the loop is still running after that many iterations. -/

/-- Errors of wait_for_batch, from enum WaitForBatchError (batch.rs 95-120),
minus the transport wrapper variant, which the model does not exercise. -/
inductive WaitForBatchError where
  | BatchFailed (id : String) (error : String)
  | BatchCancelled (id : String)
  | BatchTimeout (id : String)
  | BatchExpired (id : String)
deriving DecidableEq

/-- The sleep duration computed at batch.rs 533 for a given value of the
incremented attempt counter: min(120, 2_u64.pow(attempts)), with the u64
wraparound explicit. -/
def backoffDelay (attempts : Nat) : Nat := min 120 (2 ^ attempts % 2 ^ 64)

/-- The mutable state of the wait_for_batch loop. -/
structure WaitState where
  attempts : Nat
  seconds_waited : Nat
deriving DecidableEq

/-- One unfolding of the wait_for_batch loop body (batch.rs 508-542),
driven by fuel. -/
def wait_run (get_status : Nat → Batch) (batch_id : String) :
    Nat → WaitState → Option (Except WaitForBatchError Batch)
  | 0, _ => none
  | fuel + 1, st =>
    let batch := get_status st.attempts
    match batch.status with
    | .Completed => some (.ok batch)
    | .Failed => some (.error (.BatchFailed batch_id (batch.errors.getD "null")))
    | .Expired => some (.error (.BatchExpired batch_id))
    | .Cancelled => some (.error (.BatchCancelled batch_id))
    | .Cancelling => some (.error (.BatchCancelled batch_id))
    | _ =>
      if 86400 ≤ st.seconds_waited then some (.error (.BatchTimeout batch_id))
      else
        wait_run get_status batch_id fuel
          ⟨st.attempts + 1, st.seconds_waited + backoffDelay (st.attempts + 1)⟩

/-- wait_for_batch (batch.rs 504): run the loop from attempts = 0,
seconds_waited = 0. -/
def wait_for_batch (get_status : Nat → Batch) (batch_id : String) (fuel : Nat) :
    Option (Except WaitForBatchError Batch) :=
  wait_run get_status batch_id fuel ⟨0, 0⟩

/-- The value of seconds_waited after n completed non-terminal iterations. -/
def waitedAfter : Nat → Nat
  | 0 => 0
  | n + 1 => waitedAfter n + backoffDelay (n + 1)

theorem waitedAfter_63 : waitedAfter 63 = 6966 := by decide

theorem waitedAfter_mono : Monotone waitedAfter :=
  monotone_nat_of_le_succ (fun _ => Nat.le_add_right _ _)

theorem backoffDelay_freeze (k : Nat) : backoffDelay (64 + k) = 0 := by
  unfold backoffDelay
  rw [pow_add, Nat.mul_mod_right]
  rfl

theorem waitedAfter_freeze : ∀ k : Nat, waitedAfter (63 + k) = 6966
  | 0 => waitedAfter_63
  | k + 1 => by
    have h1 : waitedAfter (63 + (k + 1)) = waitedAfter (63 + k) + backoffDelay (64 + k) := by
      have h2 : 63 + (k + 1) = (63 + k) + 1 := by omega
      have h3 : (63 + k) + 1 = 64 + k := by omega
      rw [h2, waitedAfter, h3]
    rw [h1, backoffDelay_freeze, waitedAfter_freeze k]

theorem waitedAfter_le (n : Nat) : waitedAfter n ≤ 6966 := by
  rcases le_or_lt n 63 with h | h
  · exact waitedAfter_63 ▸ waitedAfter_mono h
  · obtain ⟨k, rfl⟩ : ∃ k, n = 63 + k := ⟨n - 63, by omega⟩
    exact (waitedAfter_freeze k).le

/-- A batch that is observed InProgress on every poll. -/
def inProgressBatch : Batch :=
  { id := "batch_1", status := .InProgress, output_file_id := none,
    errors := none, metadata := none }

theorem wait_run_inProgress (fuel : Nat) :
    ∀ n : Nat, wait_run (fun _ => inProgressBatch) "batch_1" fuel ⟨n, waitedAfter n⟩ = none := by
  induction fuel with
  | zero => intro _; rfl
  | succ fuel ih =>
    intro n
    have hlt : ¬ 86400 ≤ waitedAfter n := by
      have := waitedAfter_le n
      omega
    show (if 86400 ≤ waitedAfter n then some (.error (.BatchTimeout "batch_1"))
      else wait_run (fun _ => inProgressBatch) "batch_1" fuel
        ⟨n + 1, waitedAfter n + backoffDelay (n + 1)⟩) = none
    rw [if_neg hlt]
    exact ih (n + 1)

/-- Claim C3: the claim states that on a job whose status never becomes
terminal, wait_for_batch terminates with a timeout error and its tracked
wait time stays within the 86400 second ceiling.  The code cannot do this:
from attempt 64 on, 2_u64.pow(attempts) wraps to 0, so the computed delay is
min(120, 0) = 0 and seconds_waited freezes at 6966 < 86400 (in a debug build
the overflow aborts the process instead).  The timeout branch is therefore
unreachable and the loop polls forever.  This theorem evaluates the model at
the failing input: with an always-InProgress status stream, the loop is
still running after any number of iterations. -/
theorem wait_for_batch_never_times_out (fuel : Nat) :
    wait_for_batch (fun _ => inProgressBatch) "batch_1" fuel = none :=
  wait_run_inProgress fuel 0

/-- Claim C9 counterexample: the claim states that the nth sleep lasts
exactly min(120, 2 ^ n) seconds.  At n = 64 the computed delay is 0, not
min(120, 2 ^ 64) = 120, and the 64th iteration adds nothing to the tracked
wait time. -/
theorem backoffDelay_64_counterexample :
    backoffDelay 64 ≠ min 120 (2 ^ 64) ∧ waitedAfter 64 = waitedAfter 63 := by
  constructor
  · decide
  · show waitedAfter 63 + backoffDelay (63 + 1) = waitedAfter 63
    have h : (63 : Nat) + 1 = 64 + 0 := by omega
    rw [h, backoffDelay_freeze, Nat.add_zero]

/-- Claim C9, amended: while the status is non-terminal the nth sleep lasts
min(120, 2 ^ n mod 2 ^ 64) seconds, which equals min(120, 2 ^ n) — namely
2, 4, 8, ... capped at 120 — for n up to 63, and is 0 from n = 64 on because
the u64 power wraps. -/
theorem backoffDelay_formula (n : Nat) (h1 : 1 ≤ n) :
    backoffDelay n = if n ≤ 63 then min 120 (2 ^ n) else 0 := by
  by_cases h : n ≤ 63
  · rw [if_pos h]
    unfold backoffDelay
    rw [Nat.mod_eq_of_lt (Nat.pow_lt_pow_right (by norm_num) (by omega))]
  · rw [if_neg h]
    obtain ⟨k, rfl⟩ : ∃ k, n = 64 + k := ⟨n - 64, by omega⟩
    exact backoffDelay_freeze k

/-- Witness for the amended claim C9 at n = 3. -/
theorem backoffDelay_formula_witness :
    1 ≤ 3 ∧ backoffDelay 3 = if 3 ≤ 63 then min 120 (2 ^ 3) else 0 :=
  ⟨by decide, backoffDelay_formula 3 (by decide)⟩

/-! ### Result items and get_batch_results, from batch.rs lines 187-220 and
546-570, and the response types of chat_completions.rs lines 235-275.

The body of a successful item is a serde_json Value in the source, parsed
into ChatResponseOrError by batch_chat_with_messages_raw; the model carries
the outcome of that parse directly (ok with the parsed value, or error with
the message of the serde failure). -/

/-- An OpenAI error payload, reduced to its message. -/
structure OpenAiError where
  message : String
deriving DecidableEq

/-- The message inside a chat choice (chat_completions.rs 235-239), reduced
to role and content. -/
structure ChatMessageResponse where
  role : String
  content : String
deriving DecidableEq

/-- A chat choice (chat_completions.rs 257-266); only the message field is
read by the reconciliation. -/
structure ChatChoice where
  message : ChatMessageResponse
deriving DecidableEq

/-- A chat response (chat_completions.rs 241-255); only the choices field is
read by the reconciliation. -/
structure ChatResponse where
  choices : List ChatChoice
deriving DecidableEq

/-- The untagged union a batch item body parses into (chat_completions.rs
268-275). -/
inductive ChatResponseOrError where
  | Error (e : OpenAiError)
  | Response (r : ChatResponse)
deriving DecidableEq

/-- An error from a batch item, from struct BatchItemError (batch.rs
211-220). -/
structure BatchItemError where
  code : String
  message : String
deriving DecidableEq

instance {ε α : Type} [DecidableEq ε] [DecidableEq α] : DecidableEq (Except ε α) :=
  fun x y =>
    match x, y with
    | .error a, .error b =>
      if h : a = b then isTrue (by rw [h]) else
        isFalse (by intro hc; cases hc; exact h rfl)
    | .error _, .ok _ => isFalse (by intro hc; cases hc)
    | .ok _, .error _ => isFalse (by intro hc; cases hc)
    | .ok a, .ok b =>
      if h : a = b then isTrue (by rw [h]) else
        isFalse (by intro hc; cases hc; exact h rfl)

/-- A response from a batch item, from struct BatchItemResponse (batch.rs
200-209).  The body field is a Value in the source; the model carries the
outcome of the serde parse into ChatResponseOrError that the reconciliation
performs on it. -/
structure BatchItemResponse where
  status_code : Nat
  request_id : String
  body : Except String ChatResponseOrError
deriving DecidableEq

/-- A response item from a batch, from struct BatchResponseItem (batch.rs
187-198). -/
structure BatchResponseItem where
  id : String
  custom_id : String
  response : Option BatchItemResponse
  error : Option BatchItemError
deriving DecidableEq

/-- Errors of get_batch_results, from enum GetBatchResultsError (batch.rs
122-140).  The download failure wrapper is not modeled: the model receives
the downloaded content as already split and line-parsed input.  The
JsonParseError carries only the serde message here. -/
inductive GetBatchResultsError where
  | BatchNotCompleted (status : BatchStatus)
  | BatchNoOutputFile (id : String)
  | JsonParseError (msg : String)
deriving DecidableEq

/-- The line loop of get_batch_results (batch.rs 562-567): parse each
downloaded line in order into a BatchResponseItem, failing on the first
unparseable line.  Each input entry is the outcome serde gives for that
line. -/
def parseLines : List (Except String BatchResponseItem) →
    Except GetBatchResultsError (List BatchResponseItem)
  | [] => .ok []
  | l :: rest =>
    match l with
    | .error e => .error (.JsonParseError e)
    | .ok r =>
      match parseLines rest with
      | .error err => .error err
      | .ok rs => .ok (r :: rs)

/-- get_batch_results (batch.rs 546-570): require Completed status, require
an output file id, then parse the content line by line, failing on the
first bad line. -/
def get_batch_results (batch : Batch) (lines : List (Except String BatchResponseItem)) :
    Except GetBatchResultsError (List BatchResponseItem) :=
  if batch.status ≠ BatchStatus.Completed then
    .error (.BatchNotCompleted batch.status)
  else
    match batch.output_file_id with
    | none => .error (.BatchNoOutputFile batch.id)
    | some _ => parseLines lines

theorem parseLines_err {lines : List (Except String BatchResponseItem)}
    {msg : String} (h : Except.error msg ∈ lines) :
    ∃ m, parseLines lines = Except.error (GetBatchResultsError.JsonParseError m) := by
  induction lines with
  | nil => cases h
  | cons l rest ih =>
    rcases l with e | r
    · exact ⟨e, rfl⟩
    · rcases List.mem_cons.1 h with h1 | h1
      · cases h1
      · rcases ih h1 with ⟨m, hm⟩
        exact ⟨m, by rw [parseLines, hm]⟩

theorem parseLines_err_shape {lines : List (Except String BatchResponseItem)}
    {e : GetBatchResultsError} (h : parseLines lines = Except.error e) :
    ∃ m, e = GetBatchResultsError.JsonParseError m := by
  induction lines with
  | nil => cases h
  | cons l rest ih =>
    rcases l with msg | r
    · rw [parseLines] at h
      cases h
      exact ⟨msg, rfl⟩
    · rw [parseLines] at h
      rcases hrest : parseLines rest with err | rs <;> rw [hrest] at h
      · cases h
        exact ih hrest
      · cases h

/-- Claim C7: get_batch_results fails with a not-completed error carrying
the actual status exactly when the status is not Completed; for a Completed
job it fails with the distinct no-output-file error exactly when the output
file id is absent; and for a Completed job with an output file, any
unparseable line makes the whole call fail with a parse error (so no partial
result list is ever returned). -/
theorem get_batch_results_spec (batch : Batch)
    (lines : List (Except String BatchResponseItem)) :
    (batch.status ≠ BatchStatus.Completed →
      get_batch_results batch lines = .error (.BatchNotCompleted batch.status)) ∧
    ((∃ s, get_batch_results batch lines = .error (.BatchNotCompleted s)) ↔
      batch.status ≠ BatchStatus.Completed) ∧
    (batch.status = BatchStatus.Completed →
      (get_batch_results batch lines = .error (.BatchNoOutputFile batch.id) ↔
        batch.output_file_id = none)) ∧
    (batch.status = BatchStatus.Completed → batch.output_file_id ≠ none →
      ∀ msg, Except.error msg ∈ lines →
        ∃ m, get_batch_results batch lines = .error (.JsonParseError m)) := by
  refine ⟨?_, ⟨?_, ?_⟩, ?_, ?_⟩
  · intro h
    simp [get_batch_results, h]
  · rintro ⟨s, hs⟩ hc
    rw [get_batch_results, if_neg (by simp [hc])] at hs
    rcases ho : batch.output_file_id with _ | fid <;> rw [ho] at hs
    · cases hs
    · rcases parseLines_err_shape hs with ⟨m, hm⟩
      cases hm
  · intro h
    exact ⟨batch.status, by simp [get_batch_results, h]⟩
  · intro hc
    constructor
    · intro h
      rw [get_batch_results, if_neg (by simp [hc])] at h
      rcases ho : batch.output_file_id with _ | fid
      · rfl
      · rw [ho] at h
        rcases parseLines_err_shape h with ⟨m, hm⟩
        cases hm
    · intro ho
      simp [get_batch_results, hc, ho]
  · intro hc ho msg hmem
    rcases hof : batch.output_file_id with _ | fid
    · exact absurd hof ho
    · rcases parseLines_err hmem with ⟨m, hm⟩
      exact ⟨m, by simp [get_batch_results, hc, hof, hm]⟩

/-- A concrete completed batch with an output file, for the C7 witness. -/
def completedBatch : Batch :=
  { id := "batch_2", status := .Completed, output_file_id := some "file_7",
    errors := none, metadata := none }

/-- Witness for claim C7: a Completed batch with an output file whose
content contains one unparseable line yields a parse error for the whole
call. -/
theorem get_batch_results_spec_witness :
    ∃ m, get_batch_results completedBatch [Except.error "bad json"] =
      .error (.JsonParseError m) :=
  (get_batch_results_spec completedBatch [Except.error "bad json"]).2.2.2
    rfl (by simp [completedBatch]) "bad json" (by simp)

/-! ### Result reconciliation, from batch_chat_with_messages_raw
(chat_completions.rs 866-917).

The code runs three stages, each a collect over Result that stops at the
first error: (1) map every result item to (custom_id, parsed body), failing
on a populated error field, a missing response (which the source unwraps,
aborting the process; modeled as a distinct error value) or an unparseable
body; (2) map the parsed bodies to chat responses, failing on an API error
payload, and collect into a HashMap keyed by custom id (later duplicates
overwrite earlier ones); (3) walk the original custom id order, failing on a
missing id or an empty choices list, and output the first choice content. -/

/-- Errors of the batch chat path, from enum BatchChatError
(chat_completions.rs), restricted to the variants the reconciliation can
produce.  ApiParseError keeps only the serde message.  ResponseUnwrapNone
models the response.unwrap() at chat_completions.rs 879, which aborts the
Rust process when the item has neither error nor response. -/
inductive BatchChatError where
  | BatchItemError (e : Tysm.BatchItemError)
  | ApiParseError (msg : String)
  | OpenAiError (e : Tysm.OpenAiError) (custom_id : String)
  | CustomIdNotFound (custom_id : String)
  | BatchNoChoices (custom_id : String)
  | ResponseUnwrapNone (custom_id : String)
deriving DecidableEq

/-- Stage 1 item handler (chat_completions.rs 868-888). -/
def itemToPair (it : BatchResponseItem) :
    Except BatchChatError (String × ChatResponseOrError) :=
  match it.error with
  | some e => .error (.BatchItemError e)
  | none =>
    match it.response with
    | none => .error (.ResponseUnwrapNone it.custom_id)
    | some resp =>
      match resp.body with
      | .error e => .error (.ApiParseError e)
      | .ok parsed => .ok (it.custom_id, parsed)

/-- Stage 2 handler (chat_completions.rs 891-899). -/
def pairToOk : String × ChatResponseOrError → Except BatchChatError (String × ChatResponse)
  | (cid, .Response r) => .ok (cid, r)
  | (cid, .Error e) => .error (.OpenAiError e cid)

/-- Lookup in the collected HashMap (chat_completions.rs 899, 904): the map
is built from the pair list with later insertions overwriting earlier ones,
so lookup returns the last pair with the key. -/
def hashMapGet (m : List (String × ChatResponse)) (k : String) : Option ChatResponse :=
  (m.reverse.find? (fun p => p.1 = k)).map (fun p => p.2)

/-- Stage 3 per-position handler (chat_completions.rs 901-915). -/
def lookupOutcome (m : List (String × ChatResponse)) (cid : String) :
    Except BatchChatError String :=
  match hashMapGet m cid with
  | none => .error (.CustomIdNotFound cid)
  | some r =>
    match r.choices with
    | [] => .error (.BatchNoChoices cid)
    | c :: _ => .ok c.message.content

/-- The reconciliation of batch_chat_with_messages_raw (chat_completions.rs
866-917): three short-circuiting collects. -/
def reconcile (custom_ids : List String) (items : List BatchResponseItem) :
    Except BatchChatError (List String) := do
  let pairs ← items.mapM itemToPair
  let mapped ← pairs.mapM pairToOk
  custom_ids.mapM (lookupOutcome mapped)

theorem except_bind_ok {ε α β : Type} {x : Except ε α} {g : α → Except ε β} {out : β}
    (h : (x >>= g) = Except.ok out) : ∃ a, x = Except.ok a ∧ g a = Except.ok out := by
  rcases x with e | a
  · cases h
  · exact ⟨a, rfl, h⟩

theorem mapM_ok_length {ε α β : Type} {f : α → Except ε β} :
    ∀ {l : List α} {out : List β}, l.mapM f = Except.ok out → out.length = l.length := by
  intro l
  induction l with
  | nil => intro out h; cases h; rfl
  | cons a rest ih =>
    intro out h
    rw [List.mapM_cons] at h
    rcases except_bind_ok h with ⟨b, _, h2⟩
    rcases except_bind_ok h2 with ⟨bs, hbs, h3⟩
    cases h3
    simp [ih hbs]

theorem mapM_ok_mem {ε α β : Type} {f : α → Except ε β} :
    ∀ {l : List α} {out : List β}, l.mapM f = Except.ok out →
      ∀ a ∈ l, ∃ b, f a = Except.ok b := by
  intro l
  induction l with
  | nil => intro out _ a ha; cases ha
  | cons x rest ih =>
    intro out h a ha
    rw [List.mapM_cons] at h
    rcases except_bind_ok h with ⟨b, hb, h2⟩
    rcases except_bind_ok h2 with ⟨bs, hbs, _⟩
    rcases List.mem_cons.1 ha with h1 | h1
    · exact ⟨b, h1 ▸ hb⟩
    · exact ih hbs a h1

/-- A result item with a successful payload, for the C1 scenario. -/
def okItem : BatchResponseItem :=
  { id := "resp_1", custom_id := "request-1",
    response := some
      { status_code := 200, request_id := "req_1",
        body := .ok (.Response { choices :=
          [{ message := { role := "assistant", content := "Paris" } }] }) },
    error := none }

/-- A result item with a populated error field, for the C1 scenario. -/
def errItem : BatchResponseItem :=
  { id := "resp_2", custom_id := "request-2",
    response := none,
    error := some { code := "429", message := "rate limited" } }

/-- Claim C1 counterexample: the claim states that a result stream with one
success payload and one populated error field yields one success and one
per-item error.  The code instead aborts the whole reconciliation: the first
stage collect short-circuits on the populated error field, so the caller
receives a single whole-batch BatchItemError and no per-position outcomes at
all. -/
theorem reconcile_aborts_on_item_error :
    reconcile ["request-1", "request-2"] [okItem, errItem] =
      Except.error (.BatchItemError { code := "429", message := "rate limited" }) := rfl

/-- Claim C1, amended: reconciliation returns one outcome per original
submission position only when the whole call succeeds, and it can succeed
only if no item of the result stream carries a populated error field: a
single populated error field fails the whole batch with that item's error
instead of being surfaced at its own position.  On success the output
mirrors the custom id list in length (and order, by construction of the
final walk). -/
theorem reconcile_ok_mirrors_input (custom_ids : List String)
    (items : List BatchResponseItem) (out : List String)
    (h : reconcile custom_ids items = Except.ok out) :
    out.length = custom_ids.length ∧ ∀ it ∈ items, it.error = none := by
  unfold reconcile at h
  rcases except_bind_ok h with ⟨pairs, hpairs, h2⟩
  rcases except_bind_ok h2 with ⟨mapped, _, h3⟩
  constructor
  · exact mapM_ok_length h3
  · intro it hit
    rcases mapM_ok_mem hpairs it hit with ⟨b, hb⟩
    rcases he : it.error with _ | e
    · rfl
    · rw [itemToPair, he] at hb
      cases hb

/-- Witness for the amended claim C1: a one-item all-success stream
reconciles to one output in the input order. -/
theorem reconcile_ok_mirrors_input_witness :
    (["Paris"] : List String).length = (["request-1"] : List String).length ∧
      ∀ it ∈ [okItem], it.error = none :=
  reconcile_ok_mirrors_input ["request-1"] [okItem] ["Paris"] rfl

/-! ### list_batches pagination, from batch.rs lines 604-635.

The loop repeatedly calls list_batches_limited with the id of the last seen
batch as the cursor; the successive responses of the collaborator are
modeled as a list of pages consumed in order.  The loop breaks when a page
has empty data (before extending the accumulator) or when has_more is
false (after extending); running out of modeled pages behaves like a
provider that keeps answering with empty pages. -/

/-- A page of the batch listing, from struct BatchList (batch.rs 307-316),
without the constant object tag. -/
structure BatchList where
  data : List Batch
  has_more : Bool
deriving DecidableEq

/-- The pagination loop of list_batches (batch.rs 608-635). -/
def list_batches : List BatchList → List Batch
  | [] => []
  | page :: rest =>
    if page.data.isEmpty then []
    else page.data ++ (if page.has_more then list_batches rest else [])

/-- A batch record appearing on a later page, for the C8 scenario. -/
def laterBatch : Batch :=
  { id := "batch_9", status := .Completed, output_file_id := none,
    errors := none, metadata := none }

/-- An empty page with has_more set, for the C8 counterexample. -/
def emptyMorePage : BatchList := { data := [], has_more := true }

/-- The final page holding laterBatch, for the C8 scenario. -/
def lastPage : BatchList := { data := [laterBatch], has_more := false }

/-- Claim C8 counterexample: the claim states that list_batches returns the
concatenation of all pages the collaborator returns.  If a page arrives with
empty data but has_more = true, the loop breaks before following the
cursor, so a batch on the following page is never seen. -/
theorem list_batches_empty_page_counterexample :
    list_batches [emptyMorePage, lastPage] ≠
      ([emptyMorePage, lastPage].map BatchList.data).flatten ∧
    list_batches [emptyMorePage, lastPage] = [] := by
  constructor
  · intro h
    cases h
  · rfl

/-- Claim C8, amended: list_batches returns the concatenation of all pages
provided every page before the last one is nonempty and carries
has_more = true and the last page carries has_more = false; an empty
intermediate page stops the listing early even when has_more is true. -/
theorem list_batches_nonempty_pages_complete (ps : List BatchList) (last : BatchList)
    (hne : ∀ p ∈ ps, p.data ≠ [] ∧ p.has_more = true)
    (hlast : last.has_more = false) :
    list_batches (ps ++ [last]) = ((ps ++ [last]).map BatchList.data).flatten := by
  induction ps with
  | nil =>
    rcases hd : last.data with _ | ⟨b, bs⟩
    · simp [list_batches, hd]
    · simp [list_batches, hd, hlast]
  | cons p ps ih =>
    have hp := hne p (List.mem_cons_self p ps)
    have hrest : ∀ q ∈ ps, q.data ≠ [] ∧ q.has_more = true :=
      fun q hq => hne q (List.mem_cons_of_mem p hq)
    have hde : p.data.isEmpty = false := by
      rcases hd : p.data with _ | ⟨b, bs⟩
      · exact absurd hd hp.1
      · rfl
    calc list_batches ((p :: ps) ++ [last])
        = p.data ++ list_batches (ps ++ [last]) := by
          rw [List.cons_append, list_batches, hde, hp.2]
          simp
      _ = ((p :: ps ++ [last]).map BatchList.data).flatten := by
          rw [ih hrest]
          simp

/-- A batch record on the first page, for the C8 witness. -/
def earlierBatch : Batch :=
  { id := "batch_3", status := .InProgress, output_file_id := none,
    errors := none, metadata := none }

/-- The first page holding earlierBatch, for the C8 witness. -/
def firstPage : BatchList := { data := [earlierBatch], has_more := true }

/-- Witness for the amended claim C8 at a concrete two-page listing. -/
theorem list_batches_nonempty_pages_complete_witness :
    list_batches ([firstPage] ++ [lastPage]) =
      (([firstPage] ++ [lastPage]).map BatchList.data).flatten :=
  list_batches_nonempty_pages_complete [firstPage] lastPage
    (by intro p hp; simp at hp; simp [hp, firstPage]) rfl

/-! ### The schema canonicalizer, from src/src/schema.rs.

A schemars Schema is a serde_json Value; JSON values are modeled by the Json
inductive below, with objects as association lists of key-value pairs (the
serde_json map is a BTreeMap, so insertion of a fresh key places it at its
key-ordered position, and insertion of a present key overwrites in place).
Numbers are irrelevant to the transform and carried as Int.

OpenAiTransform::transform (schema.rs 9-64) edits the current object node
and then calls the schemars helper transform_subschemas on it.  That helper
is library code outside this repository; following the specification
(section 4.1: recursion must visit array items, object properties,
definitions and combinators), the recursion below visits the values of
properties, $defs and definitions, the elements of anyOf, allOf and oneOf
arrays, and items (a single subschema or an array of subschemas).

One reordering is applied to make the recursion structural: the source edits
the node first and then recurses into the edited node, while transform below
recurses first and applies the node edit afterwards.  The two orders give
the same result: the node edit reads only keys the recursion never rewrites
($ref, the properties keys, required, oneOf as a whole), and the only
subschema position the edit writes is anyOf, whose new content is the
already transformed oneOf value, exactly what the source recursion would
have produced by transforming the moved value in place. -/

/-- A JSON value, with objects as key-value association lists. -/
inductive Json where
  | null
  | bool (b : Bool)
  | num (n : Int)
  | str (s : String)
  | arr (elems : List Json)
  | obj (fields : List (String × Json))

/-- Map lookup: the value at the first occurrence of the key. -/
def lookupField : List (String × Json) → String → Option Json
  | [], _ => none
  | (k1, v1) :: rest, k => if k1 = k then some v1 else lookupField rest k

/-- BTreeMap insert: overwrite the value in place when the key is present,
otherwise insert at the key-ordered position.  On key-sorted duplicate-free
lists — the only object representations serde_json can produce, since its
map is a BTreeMap — this is exactly the BTreeMap insertion; the theorems
below hold for arbitrary association lists, a superset. -/
def insertField : List (String × Json) → String → Json → List (String × Json)
  | [], k, v => [(k, v)]
  | (k1, v1) :: rest, k, v =>
    if k1 = k then (k, v) :: rest
    else if k < k1 then (k, v) :: (k1, v1) :: rest
    else (k1, v1) :: insertField rest k v

/-- Map removal of a key. -/
def removeField : List (String × Json) → String → List (String × Json)
  | [], _ => []
  | (k1, v1) :: rest, k =>
    if k1 = k then removeField rest k else (k1, v1) :: removeField rest k

/-- The declared property names of a node (schema.rs 18-29): the keys of the
properties object, or none when properties is absent or not an object. -/
def propNames (fs : List (String × Json)) : List String :=
  match lookupField fs "properties" with
  | some (.obj props) => props.map (fun p => p.1)
  | _ => []

/-- The entries of the required array (schema.rs 31-38), or none when
required is absent or not an array. -/
def requiredEntries (fs : List (String × Json)) : List Json :=
  match lookupField fs "required" with
  | some (.arr a) => a
  | _ => []

/-- Whether a JSON value is the string s. -/
def isStrVal (v : Json) (s : String) : Bool :=
  match v with
  | .str t => t = s
  | _ => false

/-- Equality of the two HashSet Value collections compared at schema.rs 40:
the property names (as JSON strings) and the required entries. -/
def propsEqRequired (props : List String) (req : List Json) : Bool :=
  props.all (fun s => req.any (fun v => isStrVal v s)) &&
    req.all (fun v => match v with | .str t => props.contains t | _ => false)

/-- The sort key of the comparator at schema.rs 45 and 51:
as_str().unwrap_or(""). -/
def strKey : Json → String
  | .str s => s
  | _ => ""

/-- The comparator ordering of the required sort. -/
def jsonLe (a b : Json) : Prop := strKey a ≤ strKey b

instance : DecidableRel jsonLe := fun a b =>
  inferInstanceAs (Decidable (strKey a ≤ strKey b))

instance : IsTotal Json jsonLe := ⟨fun a b => le_total (strKey a) (strKey b)⟩

instance : IsTrans Json jsonLe := ⟨fun _ _ _ h1 h2 => le_trans h1 h2⟩

/-- The stable sort of a required array (schema.rs 44-45, 49-51); Rust
sort_by is a stable sort, as is insertion sort. -/
def sortJson (l : List Json) : List Json := List.insertionSort jsonLe l

/-- The required step of the strict edit (schema.rs 40-53): make required
the full sorted property-name set when the two sets differ, or sort the
existing required array in place when they already agree as sets. -/
def editRequired (fs : List (String × Json)) : List (String × Json) :=
  if propsEqRequired (propNames fs) (requiredEntries fs) then
    match lookupField fs "required" with
    | some (.arr a) => insertField fs "required" (Json.arr (sortJson a))
    | _ => fs
  else
    insertField fs "required"
      (Json.arr (sortJson (((propNames fs).dedup).map Json.str)))

/-- The node edit inside the strict branch (schema.rs 12-53): force
additionalProperties = false, strip format, minimum and maximum, then apply
the required step. -/
def editStrict (fs : List (String × Json)) : List (String × Json) :=
  editRequired
    (removeField
      (removeField
        (removeField (insertField fs "additionalProperties" (Json.bool false)) "format")
        "minimum")
      "maximum")

/-- The oneOf rewrite (schema.rs 56-60): copy oneOf to anyOf when present,
then remove oneOf unconditionally. -/
def editOneOf (fs : List (String × Json)) : List (String × Json) :=
  removeField
    (match lookupField fs "oneOf" with
     | some v => insertField fs "anyOf" v
     | none => fs)
    "oneOf"

/-- The whole node edit of OpenAiTransform::transform (schema.rs 11-61):
the strict edit is applied only when the node carries no $ref key
(schema.rs 12), and the oneOf rewrite always. -/
def editNode (fs : List (String × Json)) : List (String × Json) :=
  editOneOf
    (match lookupField fs "$ref" with
     | none => editStrict fs
     | some _ => fs)

mutual

/-- The field walk of the subschema recursion: every field keeps its key and
transforms its value according to the key. -/
def transformFields : List (String × Json) → List (String × Json)
  | [] => []
  | (k, v) :: rest => (k, transformValueAt k v) :: transformFields rest

/-- The subschema recursion at one field, following specification section
4.1: properties, $defs and definitions hold a map of subschemas; anyOf,
allOf and oneOf hold an array of subschemas; items holds one subschema or an
array of subschemas; all other keys are not subschema positions. -/
def transformValueAt (k : String) (v : Json) : Json :=
  if k = "properties" ∨ k = "$defs" ∨ k = "definitions" then
    match v with
    | .obj m => .obj (transformValues m)
    | _ => v
  else if k = "anyOf" ∨ k = "allOf" ∨ k = "oneOf" then
    match v with
    | .arr l => .arr (transformElems l)
    | _ => v
  else if k = "items" then
    match v with
    | .arr l => .arr (transformElems l)
    | .obj m => .obj (editNode (transformFields m))
    | _ => v
  else v

/-- Transform every value of a map of subschemas. -/
def transformValues : List (String × Json) → List (String × Json)
  | [] => []
  | (k, v) :: rest =>
    (k, match v with
        | .obj m => Json.obj (editNode (transformFields m))
        | _ => v) :: transformValues rest

/-- Transform every element of an array of subschemas. -/
def transformElems : List Json → List Json
  | [] => []
  | v :: rest =>
    (match v with
     | .obj m => Json.obj (editNode (transformFields m))
     | _ => v) :: transformElems rest

end

/-- OpenAiTransform::transform (schema.rs 9-64) as a pure rewrite: a
non-object schema is left unchanged (as_object_mut fails and the subschema
helper finds nothing in it); an object node has its subschemas transformed
and the node edit applied. -/
def transform : Json → Json
  | .obj fs => .obj (editNode (transformFields fs))
  | j => j

/-- Whether a list of JSON values is sorted by the string comparator of the
required sort. -/
def isSortedStr : List Json → Bool
  | [] => true
  | [_] => true
  | a :: b :: rest => (decide (strKey a ≤ strKey b)) && isSortedStr (b :: rest)

/-- The required clause of the canonical shape: a required array, sorted by
the string comparator, whose entry set equals the declared property-name
set. -/
def requiredOk (fs : List (String × Json)) : Bool :=
  match lookupField fs "required" with
  | some (.arr a) => isSortedStr a && propsEqRequired (propNames fs) a
  | _ => false

/-- The canonical shape of one object node of the output: nodes carrying a
$ref key are exempt (the strict edit skips them); all others have
additionalProperties = false, no minimum, maximum or format keyword, and,
when they declare at least one property, a sorted required array whose
entry set is the declared property-name set. -/
def nodeOk (fs : List (String × Json)) : Bool :=
  match lookupField fs "$ref" with
  | some _ => true
  | none =>
    (match lookupField fs "additionalProperties" with
     | some (.bool false) => true
     | _ => false) &&
    (lookupField fs "minimum").isNone &&
    (lookupField fs "maximum").isNone &&
    (lookupField fs "format").isNone &&
    ((propNames fs).isEmpty || requiredOk fs)

mutual

/-- Check every object node in a schema position of a JSON tree, walking
the same positions the transform recursion walks. -/
def allNodesOk : Json → Bool
  | .obj fs => nodeOk fs && fieldsNodesOk fs
  | _ => true

/-- Check the subschema positions below the fields of an object node. -/
def fieldsNodesOk : List (String × Json) → Bool
  | [] => true
  | (k, v) :: rest => nodeOkAt k v && fieldsNodesOk rest

/-- Check the subschema positions below one field. -/
def nodeOkAt (k : String) (v : Json) : Bool :=
  if k = "properties" ∨ k = "$defs" ∨ k = "definitions" then
    match v with
    | .obj m => valuesNodesOk m
    | _ => true
  else if k = "anyOf" ∨ k = "allOf" ∨ k = "oneOf" then
    match v with
    | .arr l => elemsNodesOk l
    | _ => true
  else if k = "items" then
    match v with
    | .arr l => elemsNodesOk l
    | .obj m => nodeOk m && fieldsNodesOk m
    | _ => true
  else true

/-- Check every value of a map of subschemas. -/
def valuesNodesOk : List (String × Json) → Bool
  | [] => true
  | (_, v) :: rest =>
    (match v with
     | .obj m => nodeOk m && fieldsNodesOk m
     | _ => true) && valuesNodesOk rest

/-- Check every element of an array of subschemas. -/
def elemsNodesOk : List Json → Bool
  | [] => true
  | v :: rest =>
    (match v with
     | .obj m => nodeOk m && fieldsNodesOk m
     | _ => true) && elemsNodesOk rest

end

/-- A node carrying a $ref key and a sibling key, for the C5
counterexample: it is not a bare reference, yet the strict edit skips it. -/
def refWithSibling : Json :=
  Json.obj [("$ref", Json.str "#/defs/x"), ("minimum", Json.num 1)]

/-- Claim C5 counterexample: the claim exempts only bare $ref nodes, but the
code skips the strict edit whenever a $ref key is present at all
(schema.rs 12).  The input object with keys $ref and minimum is not a bare
$ref node, yet the output keeps minimum and gains no
additionalProperties = false and no required array. -/
theorem transform_ref_node_counterexample :
    transform refWithSibling = refWithSibling ∧
    (match transform refWithSibling with
     | .obj fs =>
        lookupField fs "minimum" = some (Json.num 1) ∧
        lookupField fs "additionalProperties" = none ∧
        lookupField fs "required" = none ∧
        lookupField fs "$ref" ≠ none ∧
        fs ≠ [("$ref", Json.str "#/defs/x")]
     | _ => False) := by
  constructor
  · rfl
  · refine ⟨rfl, rfl, rfl, ?_, ?_⟩
    · intro h
      cases h
    · intro h
      cases h

/-! ### Association list lemmas for the map operations -/

theorem lookup_insert_self (fs : List (String × Json)) (k : String) (v : Json) :
    lookupField (insertField fs k v) k = some v := by
  induction fs with
  | nil => simp [insertField, lookupField]
  | cons p rest ih =>
    obtain ⟨k1, v1⟩ := p
    by_cases h1 : k1 = k
    · simp [insertField, h1, lookupField]
    · by_cases h2 : k < k1
      · simp [insertField, h1, h2, lookupField]
      · simp [insertField, h1, h2, lookupField, ih]

theorem lookup_insert_ne (fs : List (String × Json)) (k : String) (v : Json)
    (k2 : String) (h : k2 ≠ k) :
    lookupField (insertField fs k v) k2 = lookupField fs k2 := by
  have hkk2 : ¬ k = k2 := fun hc => h hc.symm
  induction fs with
  | nil => simp [insertField, lookupField, hkk2]
  | cons p rest ih =>
    obtain ⟨k1, v1⟩ := p
    by_cases h1 : k1 = k
    · simp [insertField, h1, lookupField, hkk2]
    · by_cases h2 : k < k1
      · simp [insertField, h1, h2, lookupField, hkk2]
      · simp [insertField, h1, h2, lookupField, ih]

theorem lookup_remove_self (fs : List (String × Json)) (k : String) :
    lookupField (removeField fs k) k = none := by
  induction fs with
  | nil => rfl
  | cons p rest ih =>
    obtain ⟨k1, v1⟩ := p
    by_cases h1 : k1 = k
    · simp [removeField, h1, ih]
    · simp [removeField, h1, lookupField, ih]

theorem lookup_remove_ne (fs : List (String × Json)) (k : String)
    (k2 : String) (h : k2 ≠ k) :
    lookupField (removeField fs k) k2 = lookupField fs k2 := by
  have hkk2 : ¬ k = k2 := fun hc => h hc.symm
  induction fs with
  | nil => rfl
  | cons p rest ih =>
    obtain ⟨k1, v1⟩ := p
    by_cases h1 : k1 = k
    · simp [removeField, h1, lookupField, hkk2, ih]
    · by_cases h12 : k1 = k2
      · simp [removeField, h1, lookupField, h12, h, ih]
      · simp [removeField, h1, lookupField, h12, ih]

theorem remove_lookup_none (fs : List (String × Json)) (k : String)
    (h : lookupField fs k = none) : removeField fs k = fs := by
  induction fs with
  | nil => rfl
  | cons p rest ih =>
    obtain ⟨k1, v1⟩ := p
    by_cases h1 : k1 = k
    · rw [lookupField, if_pos h1] at h
      cases h
    · rw [lookupField, if_neg h1] at h
      rw [removeField, if_neg h1, ih h]

theorem lookup_mem {fs : List (String × Json)} {k : String} {v : Json}
    (h : lookupField fs k = some v) : (k, v) ∈ fs := by
  induction fs with
  | nil => cases h
  | cons p rest ih =>
    obtain ⟨k1, v1⟩ := p
    by_cases h1 : k1 = k
    · rw [lookupField, if_pos h1] at h
      cases h
      rw [h1]
      exact List.mem_cons_self _ _
    · rw [lookupField, if_neg h1] at h
      exact List.mem_cons_of_mem _ (ih h)

theorem mem_insertField {fs : List (String × Json)} {k : String} {v : Json}
    {p : String × Json} (h : p ∈ insertField fs k v) : p = (k, v) ∨ p ∈ fs := by
  induction fs with
  | nil =>
    rw [insertField] at h
    rcases List.mem_cons.1 h with h1 | h1
    · exact Or.inl h1
    · cases h1
  | cons q rest ih =>
    obtain ⟨k1, v1⟩ := q
    by_cases h1 : k1 = k
    · rw [insertField, if_pos h1] at h
      rcases List.mem_cons.1 h with h2 | h2
      · exact Or.inl h2
      · exact Or.inr (List.mem_cons_of_mem _ h2)
    · by_cases h2 : k < k1
      · rw [insertField, if_neg h1, if_pos h2] at h
        rcases List.mem_cons.1 h with h3 | h3
        · exact Or.inl h3
        · exact Or.inr h3
      · rw [insertField, if_neg h1, if_neg h2] at h
        rcases List.mem_cons.1 h with h3 | h3
        · exact Or.inr (h3 ▸ List.mem_cons_self _ _)
        · rcases ih h3 with h4 | h4
          · exact Or.inl h4
          · exact Or.inr (List.mem_cons_of_mem _ h4)

theorem mem_removeField {fs : List (String × Json)} {k : String}
    {p : String × Json} (h : p ∈ removeField fs k) : p ∈ fs := by
  induction fs with
  | nil => cases h
  | cons q rest ih =>
    obtain ⟨k1, v1⟩ := q
    by_cases h1 : k1 = k
    · rw [removeField, if_pos h1] at h
      exact List.mem_cons_of_mem _ (ih h)
    · rw [removeField, if_neg h1] at h
      rcases List.mem_cons.1 h with h2 | h2
      · exact h2 ▸ List.mem_cons_self _ _
      · exact List.mem_cons_of_mem _ (ih h2)

/-! ### Insertion fixedness: once a key has been inserted, inserting the same
key-value pair again changes nothing, and operations on other keys keep it
so.  This captures that the second pass of the node edit writes exactly what
the first pass wrote. -/

/-- fs absorbs a repeated insertion of the pair (k, v). -/
def InsertFixed (k : String) (v : Json) (fs : List (String × Json)) : Prop :=
  insertField fs k v = fs

theorem insertFixed_insert_self (fs : List (String × Json)) (k : String) (v : Json) :
    InsertFixed k v (insertField fs k v) := by
  unfold InsertFixed
  induction fs with
  | nil => simp [insertField]
  | cons q rest ih =>
    obtain ⟨k1, v1⟩ := q
    by_cases h1 : k1 = k
    · simp [insertField, h1]
    · by_cases h2 : k < k1
      · simp [insertField, h1, h2]
      · simp [insertField, h1, h2, ih]

theorem insertFixed_insert_other {fs : List (String × Json)} {k : String} {v : Json}
    (k2 : String) (v2 : Json) (hne : k2 ≠ k) (h : InsertFixed k v fs) :
    InsertFixed k v (insertField fs k2 v2) := by
  unfold InsertFixed at h ⊢
  induction fs with
  | nil =>
    rw [insertField] at h
    cases h
  | cons q rest ih =>
    obtain ⟨k1, v1⟩ := q
    by_cases h1 : k1 = k
    · -- the head already holds the pair (k, v)
      rw [insertField, if_pos h1] at h
      injection h with hhead htail
      injection hhead with hk hv
      have hk1k2 : ¬ k1 = k2 := fun hc => hne (hc.symm.trans h1)
      by_cases hlt : k2 < k1
      · rw [insertField, if_neg hk1k2, if_pos hlt]
        have hnlt : ¬ k < k2 := fun hc => lt_asymm hc (h1 ▸ hlt)
        rw [insertField, if_neg hne, if_neg hnlt, insertField, if_pos h1, hk, hv]
      · rw [insertField, if_neg hk1k2, if_neg hlt]
        rw [insertField, if_pos h1, hk, hv]
    · by_cases h2 : k < k1
      · -- the hypothesis is impossible: insertion would have added a new head
        rw [insertField, if_neg h1, if_pos h2] at h
        injection h with hhead htail
        injection hhead with hk hv
        exact absurd hk.symm h1
      · rw [insertField, if_neg h1, if_neg h2] at h
        injection h with hhead htail
        by_cases hk12 : k1 = k2
        · rw [insertField, if_pos hk12, insertField, if_neg hne,
            if_neg (hk12 ▸ h2), htail]
        · by_cases hlt : k2 < k1
          · rw [insertField, if_neg hk12, if_pos hlt]
            have hnlt : ¬ k < k2 := fun hc => h2 (lt_trans hc hlt)
            rw [insertField, if_neg hne, if_neg hnlt, insertField, if_neg h1,
              if_neg h2, htail]
          · rw [insertField, if_neg hk12, if_neg hlt, insertField, if_neg h1,
              if_neg h2, ih htail]

theorem insertFixed_remove_other {fs : List (String × Json)} {k : String} {v : Json}
    (k2 : String) (hne : k2 ≠ k) (h : InsertFixed k v fs) :
    InsertFixed k v (removeField fs k2) := by
  unfold InsertFixed at h ⊢
  induction fs with
  | nil =>
    rw [insertField] at h
    cases h
  | cons q rest ih =>
    obtain ⟨k1, v1⟩ := q
    by_cases h1 : k1 = k
    · rw [insertField, if_pos h1] at h
      injection h with hhead htail
      injection hhead with hk hv
      have hk1k2 : ¬ k1 = k2 := fun hc => hne (hc.symm.trans h1)
      rw [removeField, if_neg hk1k2, insertField, if_pos h1, hk, hv]
    · by_cases h2 : k < k1
      · rw [insertField, if_neg h1, if_pos h2] at h
        injection h with hhead htail
        injection hhead with hk hv
        exact absurd hk.symm h1
      · rw [insertField, if_neg h1, if_neg h2] at h
        injection h with hhead htail
        by_cases hk12 : k1 = k2
        · rw [removeField, if_pos hk12, ih htail]
        · rw [removeField, if_neg hk12, insertField, if_neg h1, if_neg h2, ih htail]

/-! ### Lookup behavior of the node edit -/

theorem lookup_editRequired_ne (fs : List (String × Json)) (k : String)
    (h : k ≠ "required") :
    lookupField (editRequired fs) k = lookupField fs k := by
  unfold editRequired
  by_cases hc : propsEqRequired (propNames fs) (requiredEntries fs)
  · rw [if_pos hc]
    rcases hl : lookupField fs "required" with _ | v
    · rfl
    · rcases v with _ | b | n | s | a | m
      · rfl
      · rfl
      · rfl
      · rfl
      · exact lookup_insert_ne fs "required" _ k h
      · rfl
  · rw [if_neg hc]
    exact lookup_insert_ne fs "required" _ k h

theorem lookup_editStrict_ne (fs : List (String × Json)) (k : String)
    (h1 : k ≠ "additionalProperties") (h2 : k ≠ "format") (h3 : k ≠ "minimum")
    (h4 : k ≠ "maximum") (h5 : k ≠ "required") :
    lookupField (editStrict fs) k = lookupField fs k := by
  unfold editStrict
  rw [lookup_editRequired_ne _ _ h5, lookup_remove_ne _ _ _ h4,
    lookup_remove_ne _ _ _ h3, lookup_remove_ne _ _ _ h2,
    lookup_insert_ne _ _ _ _ h1]

theorem lookup_editStrict_aP (fs : List (String × Json)) :
    lookupField (editStrict fs) "additionalProperties" = some (Json.bool false) := by
  unfold editStrict
  rw [lookup_editRequired_ne _ _ (by decide), lookup_remove_ne _ _ _ (by decide),
    lookup_remove_ne _ _ _ (by decide), lookup_remove_ne _ _ _ (by decide),
    lookup_insert_self]

theorem lookup_editStrict_format (fs : List (String × Json)) :
    lookupField (editStrict fs) "format" = none := by
  unfold editStrict
  rw [lookup_editRequired_ne _ _ (by decide), lookup_remove_ne _ _ _ (by decide),
    lookup_remove_ne _ _ _ (by decide), lookup_remove_self]

theorem lookup_editStrict_min (fs : List (String × Json)) :
    lookupField (editStrict fs) "minimum" = none := by
  unfold editStrict
  rw [lookup_editRequired_ne _ _ (by decide), lookup_remove_ne _ _ _ (by decide),
    lookup_remove_self]

theorem lookup_editStrict_max (fs : List (String × Json)) :
    lookupField (editStrict fs) "maximum" = none := by
  unfold editStrict
  rw [lookup_editRequired_ne _ _ (by decide), lookup_remove_self]

theorem lookup_editOneOf_ne (fs : List (String × Json)) (k : String)
    (h1 : k ≠ "oneOf") (h2 : k ≠ "anyOf") :
    lookupField (editOneOf fs) k = lookupField fs k := by
  unfold editOneOf
  rcases hl : lookupField fs "oneOf" with _ | v
  · rw [lookup_remove_ne _ _ _ h1]
  · rw [lookup_remove_ne _ _ _ h1, lookup_insert_ne _ _ _ _ h2]

theorem lookup_editOneOf_oneOf (fs : List (String × Json)) :
    lookupField (editOneOf fs) "oneOf" = none := by
  unfold editOneOf
  rcases hl : lookupField fs "oneOf" with _ | v <;> rw [lookup_remove_self]

/-! ### Sortedness and set comparison lemmas -/

theorem sorted_isSortedStr : ∀ {l : List Json}, List.Sorted jsonLe l → isSortedStr l = true
  | [], _ => rfl
  | [_], _ => rfl
  | a :: b :: rest, h => by
    rcases List.sorted_cons.1 h with ⟨hall, htail⟩
    have hab : jsonLe a b := hall b (List.mem_cons_self _ _)
    rw [isSortedStr]
    rw [sorted_isSortedStr htail]
    simp [jsonLe] at hab
    simp [hab]

theorem isSortedStr_sortJson (l : List Json) : isSortedStr (sortJson l) = true :=
  sorted_isSortedStr (List.sorted_insertionSort jsonLe l)

theorem mem_sortJson {l : List Json} {v : Json} : v ∈ sortJson l ↔ v ∈ l :=
  List.mem_insertionSort jsonLe

theorem any_mem_congr {α : Type} {a b : List α} (h : ∀ v, v ∈ a ↔ v ∈ b)
    (p : α → Bool) : a.any p = b.any p := by
  apply Bool.eq_iff_iff.mpr
  simp only [List.any_eq_true]
  constructor
  · rintro ⟨x, hx, hp⟩
    exact ⟨x, (h x).1 hx, hp⟩
  · rintro ⟨x, hx, hp⟩
    exact ⟨x, (h x).2 hx, hp⟩

theorem all_mem_congr {α : Type} {a b : List α} (h : ∀ v, v ∈ a ↔ v ∈ b)
    (p : α → Bool) : a.all p = b.all p := by
  apply Bool.eq_iff_iff.mpr
  simp only [List.all_eq_true]
  constructor
  · intro hall x hx
    exact hall x ((h x).2 hx)
  · intro hall x hx
    exact hall x ((h x).1 hx)

theorem propsEqRequired_mem_congr {a b : List Json} (h : ∀ v, v ∈ a ↔ v ∈ b)
    (props : List String) : propsEqRequired props a = propsEqRequired props b := by
  unfold propsEqRequired
  have h1 : (fun s => a.any (fun v => isStrVal v s)) =
      (fun s => b.any (fun v => isStrVal v s)) :=
    funext fun s => any_mem_congr h _
  rw [h1, all_mem_congr h]

theorem propsEqRequired_nil_imp {props : List String}
    (h : propsEqRequired props [] = true) : props = [] := by
  unfold propsEqRequired at h
  rw [Bool.and_eq_true] at h
  have h1 := List.all_eq_true.1 h.1
  rcases props with _ | ⟨s, rest⟩
  · rfl
  · have := h1 s (List.mem_cons_self _ _)
    simp [List.any] at this

theorem propsEqRequired_dedup_str (props : List String) :
    propsEqRequired props ((props.dedup).map Json.str) = true := by
  unfold propsEqRequired
  rw [Bool.and_eq_true]
  constructor
  · rw [List.all_eq_true]
    intro s hs
    rw [List.any_eq_true]
    refine ⟨Json.str s, ?_, ?_⟩
    · exact List.mem_map_of_mem _ (List.mem_dedup.2 hs)
    · simp [isStrVal]
  · rw [List.all_eq_true]
    intro v hv
    rcases List.mem_map.1 hv with ⟨t, ht, rfl⟩
    simpa [List.elem_iff] using List.mem_dedup.1 ht

/-! ### The required obligation of the strict edit -/

theorem propNames_editRequired (fs : List (String × Json)) :
    propNames (editRequired fs) = propNames fs := by
  unfold propNames
  rw [lookup_editRequired_ne _ _ (by decide)]

theorem requiredOk_congr {a b : List (String × Json)}
    (h1 : lookupField a "required" = lookupField b "required")
    (h2 : propNames a = propNames b) : requiredOk a = requiredOk b := by
  unfold requiredOk
  rw [h1, h2]

theorem requiredOk_of_lookup_arr {fs : List (String × Json)} {a : List Json}
    (h : lookupField fs "required" = some (Json.arr a)) :
    requiredOk fs = (isSortedStr a && propsEqRequired (propNames fs) a) := by
  unfold requiredOk
  rw [h]

theorem requiredObligation_editRequired (fs : List (String × Json)) :
    ((propNames (editRequired fs)).isEmpty || requiredOk (editRequired fs)) = true := by
  rw [propNames_editRequired]
  by_cases hc : propsEqRequired (propNames fs) (requiredEntries fs)
  · rcases hl : lookupField fs "required" with _ | v
    · -- required absent: nothing is written and the sets agreed, so there
      -- are no properties either
      have hre : requiredEntries fs = [] := by
        unfold requiredEntries
        rw [hl]
      rw [hre] at hc
      have hprops := propsEqRequired_nil_imp hc
      rw [hprops]
      rfl
    · have hother : ∀ hre : requiredEntries fs = [],
          ((propNames fs).isEmpty || requiredOk (editRequired fs)) = true := by
        intro hre
        rw [hre] at hc
        have hprops := propsEqRequired_nil_imp hc
        rw [hprops]
        rfl
      rcases v with _ | b | n | s | a | m
      · exact hother (by unfold requiredEntries; rw [hl])
      · exact hother (by unfold requiredEntries; rw [hl])
      · exact hother (by unfold requiredEntries; rw [hl])
      · exact hother (by unfold requiredEntries; rw [hl])
      · -- the sets agree and required is an array: it is sorted in place
        have hre : requiredEntries fs = a := by
          unfold requiredEntries
          rw [hl]
        have hca : propsEqRequired (propNames fs) a = true := by
          rw [← hre]
          exact hc
        have heq : editRequired fs = insertField fs "required" (Json.arr (sortJson a)) := by
          unfold editRequired
          rw [if_pos hc, hl]
        rw [heq]
        have hpn : propNames (insertField fs "required" (Json.arr (sortJson a))) =
            propNames fs := by
          unfold propNames
          rw [lookup_insert_ne _ _ _ _ (by decide)]
        have hro : requiredOk (insertField fs "required" (Json.arr (sortJson a))) = true := by
          rw [requiredOk_of_lookup_arr (lookup_insert_self _ _ _), hpn,
            propsEqRequired_mem_congr (fun v => mem_sortJson) (propNames fs),
            isSortedStr_sortJson, hca]
          rfl
        rw [hro, Bool.or_true]
      · exact hother (by unfold requiredEntries; rw [hl])
  · -- the sets differ: required is replaced with the sorted property names
    have heq : editRequired fs = insertField fs "required"
        (Json.arr (sortJson (((propNames fs).dedup).map Json.str))) := by
      unfold editRequired
      rw [if_neg hc]
    rw [heq]
    have hpn : propNames (insertField fs "required"
        (Json.arr (sortJson (((propNames fs).dedup).map Json.str)))) = propNames fs := by
      unfold propNames
      rw [lookup_insert_ne _ _ _ _ (by decide)]
    have hro : requiredOk (insertField fs "required"
        (Json.arr (sortJson (((propNames fs).dedup).map Json.str)))) = true := by
      rw [requiredOk_of_lookup_arr (lookup_insert_self _ _ _), hpn,
        propsEqRequired_mem_congr (fun v => mem_sortJson) (propNames fs),
        isSortedStr_sortJson, propsEqRequired_dedup_str]
      rfl
    rw [hro, Bool.or_true]

/-! ### The canonical shape of an edited node -/

theorem nodeOk_editNode (fs : List (String × Json)) : nodeOk (editNode fs) = true := by
  unfold editNode
  rcases href : lookupField fs "$ref" with _ | r
  · -- no $ref: the strict edit ran
    have hr2 : lookupField (editOneOf (editStrict fs)) "$ref" = none := by
      rw [lookup_editOneOf_ne _ _ (by decide) (by decide),
        lookup_editStrict_ne _ _ (by decide) (by decide) (by decide) (by decide) (by decide),
        href]
    unfold nodeOk
    rw [hr2]
    rw [lookup_editOneOf_ne _ _ (by decide) (by decide), lookup_editStrict_aP]
    rw [lookup_editOneOf_ne _ _ (by decide) (by decide), lookup_editStrict_min]
    rw [lookup_editOneOf_ne _ _ (by decide) (by decide), lookup_editStrict_max]
    rw [lookup_editOneOf_ne _ _ (by decide) (by decide), lookup_editStrict_format]
    have hpn : propNames (editOneOf (editStrict fs)) = propNames (editStrict fs) := by
      unfold propNames
      rw [lookup_editOneOf_ne _ _ (by decide) (by decide)]
    have hro : requiredOk (editOneOf (editStrict fs)) = requiredOk (editStrict fs) :=
      requiredOk_congr (lookup_editOneOf_ne _ _ (by decide) (by decide)) hpn
    rw [hpn, hro]
    have := requiredObligation_editRequired
      (removeField
        (removeField
          (removeField (insertField fs "additionalProperties" (Json.bool false)) "format")
          "minimum")
        "maximum")
    rw [show editStrict fs = editRequired
      (removeField
        (removeField
          (removeField (insertField fs "additionalProperties" (Json.bool false)) "format")
          "minimum")
        "maximum") from rfl]
    rw [this]
    rfl
  · -- a $ref key is present: the node is exempt
    have hr2 : lookupField (editOneOf fs) "$ref" = some r := by
      rw [lookup_editOneOf_ne _ _ (by decide) (by decide), href]
    unfold nodeOk
    rw [hr2]

/-! ### Rewriting lemmas for the transform recursion -/

theorem transformValues_map (l : List (String × Json)) :
    transformValues l = l.map (fun p => (p.1, transform p.2)) := by
  induction l with
  | nil => rfl
  | cons p rest ih =>
    obtain ⟨k, v⟩ := p
    cases v <;> simp [transformValues, transform, ih]

theorem transformElems_map (l : List Json) :
    transformElems l = l.map transform := by
  induction l with
  | nil => rfl
  | cons v rest ih =>
    cases v <;> simp [transformElems, transform, ih]

theorem transformFields_map (fs : List (String × Json)) :
    transformFields fs = fs.map (fun p => (p.1, transformValueAt p.1 p.2)) := by
  induction fs with
  | nil => rfl
  | cons p rest ih =>
    obtain ⟨k, v⟩ := p
    simp [transformFields, ih]

theorem lookup_transformFields (fs : List (String × Json)) (k : String) :
    lookupField (transformFields fs) k =
      (lookupField fs k).map (transformValueAt k) := by
  induction fs with
  | nil => rfl
  | cons p rest ih =>
    obtain ⟨k1, v1⟩ := p
    by_cases h1 : k1 = k
    · subst h1
      simp [transformFields, lookupField]
    · simp [transformFields, lookupField, h1, ih]

theorem mem_transformFields {fs : List (String × Json)} {p : String × Json}
    (h : p ∈ transformFields fs) :
    ∃ q ∈ fs, p = (q.1, transformValueAt q.1 q.2) := by
  rw [transformFields_map] at h
  rcases List.mem_map.1 h with ⟨q, hq, hpq⟩
  exact ⟨q, hq, hpq.symm⟩

/-! ### Unfolding lemmas for transformValueAt and nodeOkAt by key class -/

theorem tva_props {k : String} (v : Json)
    (hk : k = "properties" ∨ k = "$defs" ∨ k = "definitions") :
    transformValueAt k v =
      (match v with | .obj m => Json.obj (transformValues m) | _ => v) := by
  unfold transformValueAt
  rw [if_pos hk]

theorem tva_combinator {k : String} (v : Json)
    (hk : k = "anyOf" ∨ k = "allOf" ∨ k = "oneOf")
    (hk2 : ¬ (k = "properties" ∨ k = "$defs" ∨ k = "definitions")) :
    transformValueAt k v =
      (match v with | .arr l => Json.arr (transformElems l) | _ => v) := by
  unfold transformValueAt
  rw [if_neg hk2, if_pos hk]

theorem tva_items (v : Json) :
    transformValueAt "items" v =
      (match v with
       | .arr l => Json.arr (transformElems l)
       | .obj m => Json.obj (editNode (transformFields m))
       | _ => v) := by
  unfold transformValueAt
  rw [if_neg (by decide), if_neg (by decide), if_pos (by rfl)]

theorem tva_other {k : String} (v : Json)
    (h1 : ¬ (k = "properties" ∨ k = "$defs" ∨ k = "definitions"))
    (h2 : ¬ (k = "anyOf" ∨ k = "allOf" ∨ k = "oneOf"))
    (h3 : ¬ k = "items") : transformValueAt k v = v := by
  unfold transformValueAt
  rw [if_neg h1, if_neg h2, if_neg h3]

theorem nodeOkAt_props {k : String} (v : Json)
    (hk : k = "properties" ∨ k = "$defs" ∨ k = "definitions") :
    nodeOkAt k v =
      (match v with | .obj m => valuesNodesOk m | _ => true) := by
  unfold nodeOkAt
  rw [if_pos hk]

theorem nodeOkAt_combinator {k : String} (v : Json)
    (hk : k = "anyOf" ∨ k = "allOf" ∨ k = "oneOf")
    (hk2 : ¬ (k = "properties" ∨ k = "$defs" ∨ k = "definitions")) :
    nodeOkAt k v =
      (match v with | .arr l => elemsNodesOk l | _ => true) := by
  unfold nodeOkAt
  rw [if_neg hk2, if_pos hk]

theorem nodeOkAt_items (v : Json) :
    nodeOkAt "items" v =
      (match v with
       | .arr l => elemsNodesOk l
       | .obj m => nodeOk m && fieldsNodesOk m
       | _ => true) := by
  unfold nodeOkAt
  rw [if_neg (by decide), if_neg (by decide), if_pos (by rfl)]

theorem nodeOkAt_other {k : String} (v : Json)
    (h1 : ¬ (k = "properties" ∨ k = "$defs" ∨ k = "definitions"))
    (h2 : ¬ (k = "anyOf" ∨ k = "allOf" ∨ k = "oneOf"))
    (h3 : ¬ k = "items") : nodeOkAt k v = true := by
  unfold nodeOkAt
  rw [if_neg h1, if_neg h2, if_neg h3]

/-! ### Pointwise forms of the node checkers -/

theorem elemsNodesOk_eq_all (l : List Json) : elemsNodesOk l = l.all allNodesOk := by
  induction l with
  | nil => rfl
  | cons v rest ih =>
    cases v <;> simp [elemsNodesOk, allNodesOk, ih]

theorem valuesNodesOk_eq_all (l : List (String × Json)) :
    valuesNodesOk l = l.all (fun p => allNodesOk p.2) := by
  induction l with
  | nil => rfl
  | cons p rest ih =>
    obtain ⟨k, v⟩ := p
    cases v <;> simp [valuesNodesOk, allNodesOk, ih]

theorem fieldsNodesOk_eq_all (fs : List (String × Json)) :
    fieldsNodesOk fs = fs.all (fun p => nodeOkAt p.1 p.2) := by
  induction fs with
  | nil => rfl
  | cons p rest ih =>
    obtain ⟨k, v⟩ := p
    simp [fieldsNodesOk, ih]

/-! ### Provenance of the fields of an edited node -/

theorem mem_editStrict {x : List (String × Json)} {p : String × Json}
    (h : p ∈ editStrict x) :
    p.1 = "additionalProperties" ∨ p.1 = "required" ∨ p ∈ x := by
  unfold editStrict editRequired at h
  have base : ∀ {q : String × Json},
      q ∈ removeField
        (removeField
          (removeField (insertField x "additionalProperties" (Json.bool false)) "format")
          "minimum")
        "maximum" →
      q.1 = "additionalProperties" ∨ q.1 = "required" ∨ q ∈ x := by
    intro q hq
    have hq2 := mem_removeField (mem_removeField (mem_removeField hq))
    rcases mem_insertField hq2 with h1 | h1
    · left
      rw [h1]
    · right; right
      exact h1
  by_cases hc : propsEqRequired
      (propNames (removeField
        (removeField
          (removeField (insertField x "additionalProperties" (Json.bool false)) "format")
          "minimum")
        "maximum"))
      (requiredEntries (removeField
        (removeField
          (removeField (insertField x "additionalProperties" (Json.bool false)) "format")
          "minimum")
        "maximum"))
  · rw [if_pos hc] at h
    rcases hl : lookupField (removeField
        (removeField
          (removeField (insertField x "additionalProperties" (Json.bool false)) "format")
          "minimum")
        "maximum") "required" with _ | v
    · rw [hl] at h
      exact base h
    · rw [hl] at h
      rcases v with _ | b | n | s | a | m
      · exact base h
      · exact base h
      · exact base h
      · exact base h
      · rcases mem_insertField h with h1 | h1
        · right; left
          rw [h1]
        · exact base h1
      · exact base h
  · rw [if_neg hc] at h
    rcases mem_insertField h with h1 | h1
    · right; left
      rw [h1]
    · exact base h1

theorem mem_editNode {x : List (String × Json)} {p : String × Json}
    (h : p ∈ editNode x) :
    p.1 = "additionalProperties" ∨ p.1 = "required" ∨
      (p.1 = "anyOf" ∧ lookupField x "oneOf" = some p.2) ∨ p ∈ x := by
  unfold editNode editOneOf at h
  rcases href : lookupField x "$ref" with _ | r <;> rw [href] at h
  · -- strict path
    have honeof : lookupField (editStrict x) "oneOf" = lookupField x "oneOf" :=
      lookup_editStrict_ne _ _ (by decide) (by decide) (by decide) (by decide) (by decide)
    rcases hone : lookupField (editStrict x) "oneOf" with _ | w <;> rw [hone] at h
    · have h2 := mem_removeField h
      rcases mem_editStrict h2 with h3 | h3 | h3
      · exact Or.inl h3
      · exact Or.inr (Or.inl h3)
      · exact Or.inr (Or.inr (Or.inr h3))
    · have h2 := mem_removeField h
      rcases mem_insertField h2 with h3 | h3
      · right; right; left
        subst h3
        refine ⟨rfl, ?_⟩
        rw [← honeof, hone]
      · rcases mem_editStrict h3 with h4 | h4 | h4
        · exact Or.inl h4
        · exact Or.inr (Or.inl h4)
        · exact Or.inr (Or.inr (Or.inr h4))
  · -- $ref path
    rcases hone : lookupField x "oneOf" with _ | w <;> rw [hone] at h
    · exact Or.inr (Or.inr (Or.inr (mem_removeField h)))
    · have h2 := mem_removeField h
      rcases mem_insertField h2 with h3 | h3
      · right; right; left
        subst h3
        exact ⟨rfl, rfl⟩
      · exact Or.inr (Or.inr (Or.inr h3))

/-! ### Size bounds for the induction -/

theorem sizeOf_val_lt {fs : List (String × Json)} {k : String} {v : Json}
    (h : (k, v) ∈ fs) : sizeOf v < sizeOf (Json.obj fs) := by
  have h1 := List.sizeOf_lt_of_mem h
  simp only [Prod.mk.sizeOf_spec] at h1
  simp only [Json.obj.sizeOf_spec]
  omega

theorem sizeOf_elem_lt {l : List Json} {v : Json} (h : v ∈ l) :
    sizeOf v < sizeOf (Json.arr l) := by
  have h1 := List.sizeOf_lt_of_mem h
  simp only [Json.arr.sizeOf_spec]
  omega

theorem sizeOf_json_pos (v : Json) : 0 < sizeOf v := by
  cases v <;> simp

/-! ### The canonical shape of a transformed value, by key class -/

theorem nodeOkAt_tva (k : String) (v : Json)
    (IH : ∀ u : Json, sizeOf u ≤ sizeOf v → allNodesOk (transform u) = true) :
    nodeOkAt k (transformValueAt k v) = true := by
  by_cases hp : k = "properties" ∨ k = "$defs" ∨ k = "definitions"
  · rcases v with _ | b | n | s | l | m
    · rw [tva_props _ hp, nodeOkAt_props _ hp]
    · rw [tva_props _ hp, nodeOkAt_props _ hp]
    · rw [tva_props _ hp, nodeOkAt_props _ hp]
    · rw [tva_props _ hp, nodeOkAt_props _ hp]
    · rw [tva_props _ hp, nodeOkAt_props _ hp]
    · rw [tva_props _ hp, nodeOkAt_props _ hp]
      show valuesNodesOk (transformValues m) = true
      rw [transformValues_map, valuesNodesOk_eq_all, List.all_eq_true]
      rintro p hp2
      rcases List.mem_map.1 hp2 with ⟨q, hq, rfl⟩
      obtain ⟨k0, u⟩ := q
      exact IH u (le_of_lt (sizeOf_val_lt hq))
  · by_cases hcomb : k = "anyOf" ∨ k = "allOf" ∨ k = "oneOf"
    · rcases v with _ | b | n | s | l | m
      · rw [tva_combinator _ hcomb hp, nodeOkAt_combinator _ hcomb hp]
      · rw [tva_combinator _ hcomb hp, nodeOkAt_combinator _ hcomb hp]
      · rw [tva_combinator _ hcomb hp, nodeOkAt_combinator _ hcomb hp]
      · rw [tva_combinator _ hcomb hp, nodeOkAt_combinator _ hcomb hp]
      · rw [tva_combinator _ hcomb hp, nodeOkAt_combinator _ hcomb hp]
        show elemsNodesOk (transformElems l) = true
        rw [transformElems_map, elemsNodesOk_eq_all, List.all_eq_true]
        intro w hw
        rcases List.mem_map.1 hw with ⟨e, he, rfl⟩
        exact IH e (le_of_lt (sizeOf_elem_lt he))
      · rw [tva_combinator _ hcomb hp, nodeOkAt_combinator _ hcomb hp]
    · by_cases hitems : k = "items"
      · subst hitems
        rcases v with _ | b | n | s | l | m
        · rw [tva_items, nodeOkAt_items]
        · rw [tva_items, nodeOkAt_items]
        · rw [tva_items, nodeOkAt_items]
        · rw [tva_items, nodeOkAt_items]
        · rw [tva_items, nodeOkAt_items]
          show elemsNodesOk (transformElems l) = true
          rw [transformElems_map, elemsNodesOk_eq_all, List.all_eq_true]
          intro w hw
          rcases List.mem_map.1 hw with ⟨e, he, rfl⟩
          exact IH e (le_of_lt (sizeOf_elem_lt he))
        · rw [tva_items, nodeOkAt_items]
          show allNodesOk (transform (Json.obj m)) = true
          exact IH (Json.obj m) le_rfl
      · rw [tva_other v hp hcomb hitems]
        exact nodeOkAt_other v hp hcomb hitems

/-! ### Claim C5, amended form -/

theorem allNodesOk_transform_aux :
    ∀ n : Nat, ∀ s : Json, sizeOf s ≤ n → allNodesOk (transform s) = true := by
  intro n
  induction n with
  | zero =>
    intro s hs
    exact absurd hs (by have := sizeOf_json_pos s; omega)
  | succ n ih =>
    intro s hs
    rcases s with _ | b | m | t | l | fs
    · rfl
    · rfl
    · rfl
    · rfl
    · rfl
    · -- an object node
      have IHle : ∀ u : Json, sizeOf u < sizeOf (Json.obj fs) →
          allNodesOk (transform u) = true := by
        intro u hu
        exact ih u (by omega)
      show (nodeOk (editNode (transformFields fs)) &&
        fieldsNodesOk (editNode (transformFields fs))) = true
      rw [nodeOk_editNode, Bool.true_and, fieldsNodesOk_eq_all, List.all_eq_true]
      intro p hp
      rcases mem_editNode hp with h1 | h1 | ⟨h1, h2⟩ | h1
      · obtain ⟨pk, pv⟩ := p
        simp only at h1
        subst h1
        show nodeOkAt "additionalProperties" pv = true
        exact nodeOkAt_other pv (by decide) (by decide) (by decide)
      · obtain ⟨pk, pv⟩ := p
        simp only at h1
        subst h1
        show nodeOkAt "required" pv = true
        exact nodeOkAt_other pv (by decide) (by decide) (by decide)
      · -- the anyOf field written from the transformed oneOf value
        obtain ⟨pk, pv⟩ := p
        simp only at h1 h2
        subst h1
        show nodeOkAt "anyOf" pv = true
        rw [lookup_transformFields] at h2
        rcases Option.map_eq_some'.1 h2 with ⟨v0, hv0, hpv⟩
        have hmem := lookup_mem hv0
        have hsz : sizeOf v0 < sizeOf (Json.obj fs) := sizeOf_val_lt hmem
        have hswap : transformValueAt "oneOf" v0 = transformValueAt "anyOf" v0 := by
          rw [tva_combinator v0 (by decide) (by decide),
            tva_combinator v0 (by decide) (by decide)]
        rw [← hpv, hswap]
        exact nodeOkAt_tva "anyOf" v0 (fun u hu => IHle u (lt_of_le_of_lt hu hsz))
      · -- a field surviving from the transformed input
        rcases mem_transformFields h1 with ⟨q, hq, rfl⟩
        obtain ⟨k0, u⟩ := q
        have hsz : sizeOf u < sizeOf (Json.obj fs) := sizeOf_val_lt hq
        show nodeOkAt k0 (transformValueAt k0 u) = true
        exact nodeOkAt_tva k0 u (fun w hw => IHle w (lt_of_le_of_lt hw hsz))

/-- Claim C5, amended: every object node reached through a schema position
of the output (the root, values of properties, $defs and definitions,
elements of anyOf, allOf and oneOf, and items) that carries no $ref key has
additionalProperties = false and no minimum, maximum or format keyword, and,
whenever it declares at least one property, it carries a required array,
sorted by string content, whose entry set equals its declared property-name
set.  (The original claim fails for nodes with a $ref key next to other
keys, for nodes in non-schema positions, and for propertyless nodes, which
get no required array.) -/
theorem allNodesOk_transform (s : Json) : allNodesOk (transform s) = true :=
  allNodesOk_transform_aux (sizeOf s) s le_rfl

/-! ### Idempotence of the node edit -/

theorem sortJson_idem (l : List Json) : sortJson (sortJson l) = sortJson l :=
  List.Sorted.insertionSort_eq (List.sorted_insertionSort jsonLe l)

theorem insertFixed_editRequired {fs : List (String × Json)} {k : String} {v : Json}
    (hne : "required" ≠ k) (h : InsertFixed k v fs) :
    InsertFixed k v (editRequired fs) := by
  unfold editRequired
  by_cases hc : propsEqRequired (propNames fs) (requiredEntries fs)
  · rw [if_pos hc]
    rcases hl : lookupField fs "required" with _ | w
    · exact h
    · rcases w with _ | b | n | s | a | m
      · exact h
      · exact h
      · exact h
      · exact h
      · exact insertFixed_insert_other _ _ hne h
      · exact h
  · rw [if_neg hc]
    exact insertFixed_insert_other _ _ hne h

theorem insertFixed_editOneOf {fs : List (String × Json)} {k : String} {v : Json}
    (h1 : "anyOf" ≠ k) (h2 : "oneOf" ≠ k) (h : InsertFixed k v fs) :
    InsertFixed k v (editOneOf fs) := by
  unfold editOneOf
  rcases hl : lookupField fs "oneOf" with _ | w
  · exact insertFixed_remove_other _ h2 h
  · exact insertFixed_remove_other _ h2 (insertFixed_insert_other _ _ h1 h)

theorem insertFixed_aP_editStrict (fs : List (String × Json)) :
    InsertFixed "additionalProperties" (Json.bool false) (editStrict fs) := by
  unfold editStrict
  apply insertFixed_editRequired (by decide)
  apply insertFixed_remove_other _ (by decide)
  apply insertFixed_remove_other _ (by decide)
  apply insertFixed_remove_other _ (by decide)
  exact insertFixed_insert_self fs _ _

theorem propNames_eq_of_lookup {a b : List (String × Json)}
    (h : lookupField a "properties" = lookupField b "properties") :
    propNames a = propNames b := by
  unfold propNames
  rw [h]

theorem editStrict_of_editNode_fix (fs : List (String × Json)) :
    editStrict (editOneOf (editStrict fs)) = editOneOf (editStrict fs) := by
  -- name the first-pass stages
  set B := removeField
    (removeField
      (removeField (insertField fs "additionalProperties" (Json.bool false)) "format")
      "minimum")
    "maximum" with hB
  have hstrict : editStrict fs = editRequired B := rfl
  set g := editOneOf (editStrict fs) with hg
  -- the additionalProperties insertion is absorbed
  have hfixAP : InsertFixed "additionalProperties" (Json.bool false) g :=
    insertFixed_editOneOf (by decide) (by decide) (insertFixed_aP_editStrict fs)
  -- format, minimum, maximum are absent from g
  have hformat : lookupField g "format" = none := by
    rw [hg, lookup_editOneOf_ne _ _ (by decide) (by decide), lookup_editStrict_format]
  have hmin : lookupField g "minimum" = none := by
    rw [hg, lookup_editOneOf_ne _ _ (by decide) (by decide), lookup_editStrict_min]
  have hmax : lookupField g "maximum" = none := by
    rw [hg, lookup_editOneOf_ne _ _ (by decide) (by decide), lookup_editStrict_max]
  have hbase2 : removeField
      (removeField
        (removeField (insertField g "additionalProperties" (Json.bool false)) "format")
        "minimum")
      "maximum" = g := by
    rw [hfixAP, remove_lookup_none _ _ hformat, remove_lookup_none _ _ hmin,
      remove_lookup_none _ _ hmax]
  show editRequired
    (removeField
      (removeField
        (removeField (insertField g "additionalProperties" (Json.bool false)) "format")
        "minimum")
      "maximum") = g
  rw [hbase2]
  -- now the required step on g
  have hpropsg : propNames g = propNames B := by
    apply propNames_eq_of_lookup
    rw [hg, lookup_editOneOf_ne _ _ (by decide) (by decide), hstrict,
      lookup_editRequired_ne _ _ (by decide)]
  by_cases hc : propsEqRequired (propNames B) (requiredEntries B)
  · rcases hl : lookupField B "required" with _ | w
    · -- nothing was written in the first pass
      have heq1 : editStrict fs = B := by
        rw [hstrict]
        unfold editRequired
        rw [if_pos hc, hl]
      have hreqg : lookupField g "required" = none := by
        rw [hg, lookup_editOneOf_ne _ _ (by decide) (by decide), heq1, hl]
      have hentries : requiredEntries g = requiredEntries B := by
        unfold requiredEntries
        rw [hreqg, hl]
      unfold editRequired
      rw [hpropsg, hentries, if_pos hc, hreqg]
    · rcases w with _ | b | n | s | a | m
      · have heq1 : editStrict fs = B := by
          rw [hstrict]; unfold editRequired; rw [if_pos hc, hl]
        have hreqg : lookupField g "required" = lookupField B "required" := by
          rw [hg, lookup_editOneOf_ne _ _ (by decide) (by decide), heq1]
        have hentries : requiredEntries g = requiredEntries B := by
          unfold requiredEntries
          rw [hreqg, hl]
        unfold editRequired
        rw [hpropsg, hentries, if_pos hc, hreqg, hl]
      · have heq1 : editStrict fs = B := by
          rw [hstrict]; unfold editRequired; rw [if_pos hc, hl]
        have hreqg : lookupField g "required" = lookupField B "required" := by
          rw [hg, lookup_editOneOf_ne _ _ (by decide) (by decide), heq1]
        have hentries : requiredEntries g = requiredEntries B := by
          unfold requiredEntries
          rw [hreqg, hl]
        unfold editRequired
        rw [hpropsg, hentries, if_pos hc, hreqg, hl]
      · have heq1 : editStrict fs = B := by
          rw [hstrict]; unfold editRequired; rw [if_pos hc, hl]
        have hreqg : lookupField g "required" = lookupField B "required" := by
          rw [hg, lookup_editOneOf_ne _ _ (by decide) (by decide), heq1]
        have hentries : requiredEntries g = requiredEntries B := by
          unfold requiredEntries
          rw [hreqg, hl]
        unfold editRequired
        rw [hpropsg, hentries, if_pos hc, hreqg, hl]
      · have heq1 : editStrict fs = B := by
          rw [hstrict]; unfold editRequired; rw [if_pos hc, hl]
        have hreqg : lookupField g "required" = lookupField B "required" := by
          rw [hg, lookup_editOneOf_ne _ _ (by decide) (by decide), heq1]
        have hentries : requiredEntries g = requiredEntries B := by
          unfold requiredEntries
          rw [hreqg, hl]
        unfold editRequired
        rw [hpropsg, hentries, if_pos hc, hreqg, hl]
      · -- the array was sorted in place in the first pass
        have heq1 : editStrict fs = insertField B "required" (Json.arr (sortJson a)) := by
          rw [hstrict]
          unfold editRequired
          rw [if_pos hc, hl]
        have hreqg : lookupField g "required" = some (Json.arr (sortJson a)) := by
          rw [hg, lookup_editOneOf_ne _ _ (by decide) (by decide), heq1,
            lookup_insert_self]
        have hentries : requiredEntries g = sortJson a := by
          unfold requiredEntries
          rw [hreqg]
        have hcg : propsEqRequired (propNames g) (requiredEntries g) = true := by
          rw [hpropsg, hentries,
            propsEqRequired_mem_congr (fun v => mem_sortJson) (propNames B)]
          have hra : requiredEntries B = a := by
            unfold requiredEntries
            rw [hl]
          rw [← hra]
          exact hc
        have hfixreq : InsertFixed "required" (Json.arr (sortJson a)) g := by
          rw [hg, heq1]
          exact insertFixed_editOneOf (by decide) (by decide)
            (insertFixed_insert_self B _ _)
        unfold editRequired
        rw [if_pos hcg, hreqg]
        show insertField g "required" (Json.arr (sortJson (sortJson a))) = g
        rw [sortJson_idem]
        exact hfixreq
      · have heq1 : editStrict fs = B := by
          rw [hstrict]; unfold editRequired; rw [if_pos hc, hl]
        have hreqg : lookupField g "required" = lookupField B "required" := by
          rw [hg, lookup_editOneOf_ne _ _ (by decide) (by decide), heq1]
        have hentries : requiredEntries g = requiredEntries B := by
          unfold requiredEntries
          rw [hreqg, hl]
        unfold editRequired
        rw [hpropsg, hentries, if_pos hc, hreqg, hl]
  · -- the first pass replaced required with the sorted property names
    have heq1 : editStrict fs = insertField B "required"
        (Json.arr (sortJson (((propNames B).dedup).map Json.str))) := by
      rw [hstrict]
      unfold editRequired
      rw [if_neg hc]
    have hreqg : lookupField g "required" =
        some (Json.arr (sortJson (((propNames B).dedup).map Json.str))) := by
      rw [hg, lookup_editOneOf_ne _ _ (by decide) (by decide), heq1, lookup_insert_self]
    have hentries : requiredEntries g = sortJson (((propNames B).dedup).map Json.str) := by
      unfold requiredEntries
      rw [hreqg]
    have hcg : propsEqRequired (propNames g) (requiredEntries g) = true := by
      rw [hpropsg, hentries,
        propsEqRequired_mem_congr (fun v => mem_sortJson) (propNames B)]
      exact propsEqRequired_dedup_str (propNames B)
    have hfixreq : InsertFixed "required"
        (Json.arr (sortJson (((propNames B).dedup).map Json.str))) g := by
      rw [hg, heq1]
      exact insertFixed_editOneOf (by decide) (by decide)
        (insertFixed_insert_self B _ _)
    unfold editRequired
    rw [if_pos hcg, hreqg]
    show insertField g "required"
      (Json.arr (sortJson (sortJson (((propNames B).dedup).map Json.str)))) = g
    rw [sortJson_idem]
    exact hfixreq

theorem editNode_idem (fs : List (String × Json)) :
    editNode (editNode fs) = editNode fs := by
  rcases href : lookupField fs "$ref" with _ | r
  · -- the strict edit ran in the first pass
    have hg : editNode fs = editOneOf (editStrict fs) := by
      unfold editNode
      rw [href]
    have hrefg : lookupField (editNode fs) "$ref" = none := by
      rw [hg, lookup_editOneOf_ne _ _ (by decide) (by decide),
        lookup_editStrict_ne _ _ (by decide) (by decide) (by decide) (by decide) (by decide),
        href]
    have honeg : lookupField (editNode fs) "oneOf" = none := by
      rw [hg, lookup_editOneOf_oneOf]
    show editOneOf
      (match lookupField (editNode fs) "$ref" with
       | none => editStrict (editNode fs)
       | some _ => editNode fs) = editNode fs
    rw [hrefg]
    rw [hg, editStrict_of_editNode_fix fs, ← hg]
    unfold editOneOf
    rw [honeg, remove_lookup_none _ _ honeg]
  · -- the node is exempt from the strict edit
    have hg : editNode fs = editOneOf fs := by
      unfold editNode
      rw [href]
    have hrefg : lookupField (editNode fs) "$ref" = some r := by
      rw [hg, lookup_editOneOf_ne _ _ (by decide) (by decide), href]
    have honeg : lookupField (editNode fs) "oneOf" = none := by
      rw [hg, lookup_editOneOf_oneOf]
    show editOneOf
      (match lookupField (editNode fs) "$ref" with
       | none => editStrict (editNode fs)
       | some _ => editNode fs) = editNode fs
    rw [hrefg]
    unfold editOneOf
    rw [honeg, remove_lookup_none _ _ honeg]

/-! ### Idempotence of the whole transform -/

theorem transformValues_idem (m : List (String × Json))
    (IH : ∀ p ∈ m, transform (transform p.2) = transform p.2) :
    transformValues (transformValues m) = transformValues m := by
  rw [transformValues_map, transformValues_map, List.map_map]
  apply List.map_congr_left
  intro p hp
  show (p.1, transform (transform p.2)) = (p.1, transform p.2)
  rw [IH p hp]

theorem transformElems_idem (l : List Json)
    (IH : ∀ e ∈ l, transform (transform e) = transform e) :
    transformElems (transformElems l) = transformElems l := by
  rw [transformElems_map, transformElems_map, List.map_map]
  apply List.map_congr_left
  intro e he
  show transform (transform e) = transform e
  exact IH e he

theorem tva_idem (k : String) (v : Json)
    (IH : ∀ u : Json, sizeOf u ≤ sizeOf v → transform (transform u) = transform u) :
    transformValueAt k (transformValueAt k v) = transformValueAt k v := by
  by_cases hp : k = "properties" ∨ k = "$defs" ∨ k = "definitions"
  · rcases v with _ | b | n | s | l | m
    · have hid : transformValueAt k Json.null = Json.null := by rw [tva_props _ hp]
      simp only [hid]
    · have hid : transformValueAt k (Json.bool b) = Json.bool b := by rw [tva_props _ hp]
      simp only [hid]
    · have hid : transformValueAt k (Json.num n) = Json.num n := by rw [tva_props _ hp]
      simp only [hid]
    · have hid : transformValueAt k (Json.str s) = Json.str s := by rw [tva_props _ hp]
      simp only [hid]
    · have hid : transformValueAt k (Json.arr l) = Json.arr l := by rw [tva_props _ hp]
      simp only [hid]
    · have h1 : transformValueAt k (Json.obj m) = Json.obj (transformValues m) := by
        rw [tva_props _ hp]
      have h2 : transformValueAt k (Json.obj (transformValues m)) =
          Json.obj (transformValues (transformValues m)) := by
        rw [tva_props _ hp]
      rw [h1, h2]
      exact congrArg Json.obj (transformValues_idem m
        (fun p hp2 => IH p.2 (le_of_lt (sizeOf_val_lt
          (show (p.1, p.2) ∈ m from hp2)))))
  · by_cases hcomb : k = "anyOf" ∨ k = "allOf" ∨ k = "oneOf"
    · rcases v with _ | b | n | s | l | m
      · have hid : transformValueAt k Json.null = Json.null := by
          rw [tva_combinator _ hcomb hp]
        simp only [hid]
      · have hid : transformValueAt k (Json.bool b) = Json.bool b := by
          rw [tva_combinator _ hcomb hp]
        simp only [hid]
      · have hid : transformValueAt k (Json.num n) = Json.num n := by
          rw [tva_combinator _ hcomb hp]
        simp only [hid]
      · have hid : transformValueAt k (Json.str s) = Json.str s := by
          rw [tva_combinator _ hcomb hp]
        simp only [hid]
      · have h1 : transformValueAt k (Json.arr l) = Json.arr (transformElems l) := by
          rw [tva_combinator _ hcomb hp]
        have h2 : transformValueAt k (Json.arr (transformElems l)) =
            Json.arr (transformElems (transformElems l)) := by
          rw [tva_combinator _ hcomb hp]
        rw [h1, h2]
        exact congrArg Json.arr (transformElems_idem l
          (fun e he => IH e (le_of_lt (sizeOf_elem_lt he))))
      · have hid : transformValueAt k (Json.obj m) = Json.obj m := by
          rw [tva_combinator _ hcomb hp]
        simp only [hid]
    · by_cases hitems : k = "items"
      · subst hitems
        rcases v with _ | b | n | s | l | m
        · have hid : transformValueAt "items" Json.null = Json.null := by rw [tva_items]
          simp only [hid]
        · have hid : transformValueAt "items" (Json.bool b) = Json.bool b := by
            rw [tva_items]
          simp only [hid]
        · have hid : transformValueAt "items" (Json.num n) = Json.num n := by
            rw [tva_items]
          simp only [hid]
        · have hid : transformValueAt "items" (Json.str s) = Json.str s := by
            rw [tva_items]
          simp only [hid]
        · have h1 : transformValueAt "items" (Json.arr l) =
              Json.arr (transformElems l) := by
            rw [tva_items]
          have h2 : transformValueAt "items" (Json.arr (transformElems l)) =
              Json.arr (transformElems (transformElems l)) := by
            rw [tva_items]
          rw [h1, h2]
          exact congrArg Json.arr (transformElems_idem l
            (fun e he => IH e (le_of_lt (sizeOf_elem_lt he))))
        · have h1 : transformValueAt "items" (Json.obj m) = transform (Json.obj m) := by
            rw [tva_items]
            rfl
          have h2 : transformValueAt "items" (transform (Json.obj m)) =
              transform (transform (Json.obj m)) := by
            show transformValueAt "items"
              (Json.obj (editNode (transformFields m))) = _
            rw [tva_items]
            rfl
          rw [h1, h2, IH (Json.obj m) le_rfl]
      · have hid : transformValueAt k v = v := tva_other v hp hcomb hitems
        simp only [hid]

theorem transformFields_fix_editNode {fs : List (String × Json)}
    (IH : ∀ u : Json, sizeOf u < sizeOf (Json.obj fs) →
      transform (transform u) = transform u) :
    transformFields (editNode (transformFields fs)) = editNode (transformFields fs) := by
  rw [transformFields_map]
  have hpoint : ∀ p ∈ editNode (transformFields fs),
      (fun p : String × Json => (p.1, transformValueAt p.1 p.2)) p = p := by
    intro p hp
    rcases mem_editNode hp with h1 | h1 | ⟨h1, h2⟩ | h1
    · obtain ⟨pk, pv⟩ := p
      simp only at h1
      subst h1
      show ("additionalProperties", transformValueAt "additionalProperties" pv) =
        ("additionalProperties", pv)
      rw [tva_other pv (by decide) (by decide) (by decide)]
    · obtain ⟨pk, pv⟩ := p
      simp only at h1
      subst h1
      show ("required", transformValueAt "required" pv) = ("required", pv)
      rw [tva_other pv (by decide) (by decide) (by decide)]
    · -- the anyOf value moved from the transformed oneOf
      obtain ⟨pk, pv⟩ := p
      simp only at h1 h2
      subst h1
      show ("anyOf", transformValueAt "anyOf" pv) = ("anyOf", pv)
      rw [lookup_transformFields] at h2
      rcases Option.map_eq_some'.1 h2 with ⟨v0, hv0, hpv⟩
      have hsz : sizeOf v0 < sizeOf (Json.obj fs) := sizeOf_val_lt (lookup_mem hv0)
      have hswap : transformValueAt "oneOf" v0 = transformValueAt "anyOf" v0 := by
        rw [tva_combinator v0 (by decide) (by decide),
          tva_combinator v0 (by decide) (by decide)]
      have hfix : transformValueAt "anyOf" pv = pv := by
        rw [← hpv, hswap]
        exact tva_idem "anyOf" v0 (fun u hu => IH u (lt_of_le_of_lt hu hsz))
      rw [hfix]
    · -- a field surviving from the first transform pass
      rcases mem_transformFields h1 with ⟨q, hq, rfl⟩
      obtain ⟨k0, u⟩ := q
      have hsz : sizeOf u < sizeOf (Json.obj fs) := sizeOf_val_lt hq
      show (k0, transformValueAt k0 (transformValueAt k0 u)) =
        (k0, transformValueAt k0 u)
      rw [tva_idem k0 u (fun w hw => IH w (lt_of_le_of_lt hw hsz))]
  rw [List.map_congr_left hpoint, List.map_id']

theorem transform_idem_aux :
    ∀ n : Nat, ∀ s : Json, sizeOf s ≤ n → transform (transform s) = transform s := by
  intro n
  induction n with
  | zero =>
    intro s hs
    exact absurd hs (by have := sizeOf_json_pos s; omega)
  | succ n ih =>
    intro s hs
    rcases s with _ | b | m | t | l | fs
    · rfl
    · rfl
    · rfl
    · rfl
    · rfl
    · have IHle : ∀ u : Json, sizeOf u < sizeOf (Json.obj fs) →
          transform (transform u) = transform u := by
        intro u hu
        exact ih u (by omega)
      show Json.obj (editNode (transformFields (editNode (transformFields fs)))) =
        Json.obj (editNode (transformFields fs))
      rw [transformFields_fix_editNode IHle]
      exact congrArg Json.obj (editNode_idem (transformFields fs))

/-- Claim C6: the canonicalizer is idempotent: transforming the output of
the transform yields the output unchanged, for every input schema. -/
theorem transform_idem (s : Json) : transform (transform s) = transform s :=
  transform_idem_aux (sizeOf s) s le_rfl

end Tysm
